import Mathlib

/-!
# Verification of the document ingestion / vector-retrieval core

Shallow embedding of the repository's retrieval subsystem:

* `src/utils/document_processor.py` — `DocumentProcessor._chunk_text`
  (greedy word chunker), modelled over `List Char` (a Python `str` is a
  sequence of characters; `len` is character count).
* `src/utils/db_handler.py` — `DatabaseHandler` (`__init__`,
  `add_document`, `query_similar`, `delete_document`, `list_documents`,
  `persist`), modelled as explicit state passing over `DBState`.

External effects (the FAISS search call, the success of disk writes,
the success of the in-memory FAISS insert) are inputs of the embedded
functions, constrained by their documented contracts where a theorem
needs them.
-/

namespace RagCore

/-! ## Chunker (`DocumentProcessor._chunk_text`)

Python's `text.split()` splits on runs of whitespace and drops empty
pieces; `" ".join(ws)` interleaves single spaces.  We model a Python
string as `List Char`.
-/

/-- Tokenizer loop underlying the model of Python `str.split()`: `acc`
holds the characters of the current partial word in reverse; a
whitespace character flushes a nonempty `acc`, the end of input flushes
a nonempty `acc`, and empty pieces are never emitted. -/
def pySplitAux : List Char → List Char → List (List Char)
  | acc, [] => if acc.isEmpty then [] else [acc.reverse]
  | acc, c :: cs =>
    if c.isWhitespace then
      if acc.isEmpty then pySplitAux [] cs
      else acc.reverse :: pySplitAux [] cs
    else pySplitAux (c :: acc) cs

/-- Model of Python `str.split()` (no argument): split on runs of
whitespace, dropping empty pieces.  Each returned word is nonempty and
whitespace-free. -/
def pySplit (l : List Char) : List (List Char) :=
  pySplitAux [] l

/-- Model of Python `" ".join(parts)`: concatenate with a single space
between consecutive parts. -/
def joinSp : List (List Char) → List Char
  | [] => []
  | [w] => w
  | w :: ws => w ++ ' ' :: joinSp ws

/-- The greedy accumulation loop of `_chunk_text`, at the level of word
groups.  `cc` is `current_chunk` (a list of words), `clen` is
`current_length`.  The Python loop appends `" ".join(current_chunk)` to
`chunks` at each flush; we return the flushed groups in order (the final
`" ".join` is applied by `chunkText`). -/
def chunkGroups (maxLength : Nat) : List (List Char) → List (List Char) → Nat →
    List (List (List Char))
  | [], cc, _ => if cc.isEmpty then [] else [cc]
  | w :: ws, cc, clen =>
    if clen + w.length + 1 > maxLength then
      cc :: chunkGroups maxLength ws [w] w.length
    else
      chunkGroups maxLength ws (cc ++ [w]) (clen + w.length + 1)

/-- Model of `DocumentProcessor._chunk_text(text, max_length)`:
`words = text.split()`, greedy accumulation, chunks are
`" ".join(group)`. -/
def chunkText (text : List Char) (maxLength : Nat) : List (List Char) :=
  (chunkGroups maxLength (pySplit text) [] 0).map joinSp

/-- A proper word: nonempty and free of whitespace — exactly what
Python's `str.split()` emits. -/
def ProperWord (w : List Char) : Prop :=
  w ≠ [] ∧ ∀ c ∈ w, ¬ c.isWhitespace

instance (w : List Char) : Decidable (ProperWord w) := by
  unfold ProperWord; infer_instance

/-! ### Lemmas about `pySplit` -/

theorem pySplitAux_append_sep (y : List Char) :
    ∀ (x acc : List Char),
      pySplitAux acc (x ++ ' ' :: y) = pySplitAux acc x ++ pySplitAux [] y := by
  intro x
  induction x with
  | nil =>
    intro acc
    by_cases h : acc.isEmpty <;>
      simp [pySplitAux, h, Char.isWhitespace]
  | cons c x ih =>
    intro acc
    by_cases hw : c.isWhitespace
    · by_cases h : acc.isEmpty <;>
        simp [pySplitAux, h, hw, ih]
    · simp [pySplitAux, hw, ih]

theorem pySplit_append_sep (a b : List Char) :
    pySplit (a ++ ' ' :: b) = pySplit a ++ pySplit b :=
  pySplitAux_append_sep b a []

theorem pySplitAux_no_space :
    ∀ (w acc : List Char), (∀ c ∈ w, ¬ c.isWhitespace) →
      pySplitAux acc w =
        if (acc.reverse ++ w).isEmpty then [] else [acc.reverse ++ w] := by
  intro w
  induction w with
  | nil => intro acc _; simp [pySplitAux, List.isEmpty_iff]
  | cons c w ih =>
    intro acc h
    have hc : ¬ c.isWhitespace := h c (List.mem_cons_self c w)
    have hrest : ∀ x ∈ w, ¬ x.isWhitespace := fun x hx => h x (List.mem_cons_of_mem c hx)
    rw [pySplitAux, if_neg hc, ih (c :: acc) hrest]
    have hne : (acc.reverse ++ c :: w).isEmpty = false := by
      simp [List.isEmpty_iff]
    have hne' : ((c :: acc).reverse ++ w).isEmpty = false := by
      simp [List.isEmpty_iff]
    rw [hne, hne']
    simp

theorem pySplit_properWord {w : List Char} (h : ProperWord w) : pySplit w = [w] := by
  obtain ⟨hne, hws⟩ := h
  rw [pySplit, pySplitAux_no_space w [] hws]
  simp [List.isEmpty_iff, hne]

theorem pySplitAux_sound :
    ∀ (l acc : List Char), (∀ c ∈ acc, ¬ c.isWhitespace) →
      ∀ w ∈ pySplitAux acc l, ProperWord w := by
  intro l
  induction l with
  | nil =>
    intro acc hacc w hw
    by_cases h : acc.isEmpty
    · simp [pySplitAux, h] at hw
    · rw [show pySplitAux acc [] = if acc.isEmpty then [] else [acc.reverse] from rfl,
        if_neg h, List.mem_singleton] at hw
      subst hw
      refine ⟨?_, ?_⟩
      · simp [List.isEmpty_iff] at h
        simpa using h
      · intro c hc
        exact hacc c (List.mem_reverse.mp hc)
  | cons c cs ih =>
    intro acc hacc w hw
    by_cases hws : c.isWhitespace
    · by_cases h : acc.isEmpty
      · rw [pySplitAux, if_pos hws, if_pos h] at hw
        exact ih [] (by simp) w hw
      · rw [pySplitAux, if_pos hws, if_neg h] at hw
        rcases List.mem_cons.mp hw with rfl | hw'
        · refine ⟨?_, ?_⟩
          · simp [List.isEmpty_iff] at h
            simpa using h
          · intro x hx
            exact hacc x (List.mem_reverse.mp hx)
        · exact ih [] (by simp) w hw'
    · rw [pySplitAux, if_neg hws] at hw
      refine ih (c :: acc) ?_ w hw
      intro x hx
      rcases List.mem_cons.mp hx with rfl | hx'
      · exact hws
      · exact hacc x hx'

theorem pySplit_sound {text w : List Char} (h : w ∈ pySplit text) : ProperWord w :=
  pySplitAux_sound text [] (by simp) w h

theorem joinSp_cons (w : List Char) (ws : List (List Char)) (h : ws ≠ []) :
    joinSp (w :: ws) = w ++ ' ' :: joinSp ws := by
  cases ws with
  | nil => exact absurd rfl h
  | cons y t => rfl

/-- `pySplit` of a space-join is the concatenation of the `pySplit`s. -/
theorem pySplit_joinSp : ∀ gs : List (List Char),
    pySplit (joinSp gs) = (gs.map pySplit).flatten := by
  intro gs
  induction gs with
  | nil => simp [joinSp, pySplit, pySplitAux]
  | cons x t ih =>
    cases t with
    | nil => simp [joinSp]
    | cons y t' =>
      rw [joinSp_cons x (y :: t') (by simp), pySplit_append_sep, ih]
      simp

/-- Rejoining a list of proper words with single spaces and splitting
again recovers the word list. -/
theorem pySplit_joinSp_words {ws : List (List Char)}
    (h : ∀ w ∈ ws, ProperWord w) : pySplit (joinSp ws) = ws := by
  rw [pySplit_joinSp]
  induction ws with
  | nil => simp
  | cons w t ih =>
    simp only [List.map_cons, List.flatten_cons]
    rw [pySplit_properWord (h w (List.mem_cons_self w t)),
      ih (fun x hx => h x (List.mem_cons_of_mem w hx))]
    simp

/-! ### Lemmas about `chunkGroups` -/

/-- The groups produced by the greedy loop concatenate to the pending
accumulator followed by the remaining words: no word is dropped,
duplicated, or reordered. -/
theorem chunkGroups_flatten (m : Nat) :
    ∀ (ws cc : List (List Char)) (clen : Nat),
      (chunkGroups m ws cc clen).flatten = cc ++ ws := by
  intro ws
  induction ws with
  | nil =>
    intro cc clen
    by_cases h : cc.isEmpty
    · simp_all [chunkGroups, List.isEmpty_iff]
    · simp [chunkGroups, h]
  | cons w ws ih =>
    intro cc clen
    by_cases h : clen + w.length + 1 > m
    · simp [chunkGroups, h, ih]
    · simp [chunkGroups, h, ih]

theorem joinSp_append_single_le :
    ∀ (cc : List (List Char)) (w : List Char),
      (joinSp (cc ++ [w])).length ≤ (joinSp cc).length + w.length + 1 := by
  intro cc
  induction cc with
  | nil => intro w; simp [joinSp]
  | cons x t ih =>
    intro w
    cases t with
    | nil => simp [joinSp]; omega
    | cons y t' =>
      rw [List.cons_append, joinSp_cons x ((y :: t') ++ [w]) (by simp),
        joinSp_cons x (y :: t') (by simp)]
      have := ih w
      simp only [List.length_append, List.length_cons]
      omega

/-- A chunk is within budget, or is a single word that alone exceeds
the budget. -/
def GoodChunk (m : Nat) (g : List (List Char)) : Prop :=
  (joinSp g).length ≤ m ∨ ∃ w, g = [w] ∧ m < w.length

/-- Greedy-loop invariant: every emitted group is a `GoodChunk`,
provided the pending accumulator is and its recorded length dominates
its joined length. -/
theorem chunkGroups_good (m : Nat) :
    ∀ (ws cc : List (List Char)) (clen : Nat),
      (joinSp cc).length ≤ clen → GoodChunk m cc →
      ∀ g ∈ chunkGroups m ws cc clen, GoodChunk m g := by
  intro ws
  induction ws with
  | nil =>
    intro cc clen _ hgood g hg
    by_cases h : cc.isEmpty
    · simp [chunkGroups, h] at hg
    · rw [show chunkGroups m [] cc clen = if cc.isEmpty then [] else [cc] from rfl,
        if_neg h, List.mem_singleton] at hg
      exact hg ▸ hgood
  | cons w ws ih =>
    intro cc clen hlen hgood g hg
    by_cases h : clen + w.length + 1 > m
    · simp only [chunkGroups, if_pos h, List.mem_cons] at hg
      rcases hg with rfl | hg'
      · exact hgood
      · refine ih [w] w.length (by simp [joinSp]) ?_ g hg'
        rcases le_or_lt w.length m with hle | hlt
        · exact Or.inl (by simpa [joinSp] using hle)
        · exact Or.inr ⟨w, rfl, hlt⟩
    · simp only [chunkGroups, if_neg h] at hg
      refine ih (cc ++ [w]) (clen + w.length + 1) ?_ ?_ g hg
      · exact le_trans (joinSp_append_single_le cc w) (by omega)
      · exact Or.inl (le_trans (joinSp_append_single_le cc w) (by omega))

/-! ### Chunker claims -/

/-- C6: for every text and every budget, every chunk produced by
`_chunk_text` has character length (words plus one separating space
each) at most the budget, except a chunk consisting of a single word
whose own length exceeds the budget. -/
theorem chunking_bound (text : List Char) (m : Nat) (c : List Char)
    (hc : c ∈ chunkText text m) :
    c.length ≤ m ∨ ∃ w ∈ pySplit text, c = w ∧ m < w.length := by
  obtain ⟨g, hg, rfl⟩ := List.mem_map.mp hc
  have hgood := chunkGroups_good m (pySplit text) [] 0
    (by simp [joinSp]) (Or.inl (by simp [joinSp])) g hg
  rcases hgood with h | ⟨w, rfl, hw⟩
  · exact Or.inl h
  · refine Or.inr ⟨w, ?_, rfl, hw⟩
    have hmem : w ∈ (chunkGroups m (pySplit text) [] 0).flatten :=
      List.mem_flatten.mpr ⟨[w], hg, List.mem_singleton.mpr rfl⟩
    rwa [chunkGroups_flatten, List.nil_append] at hmem

/-- Witness for C6 at a concrete input: the text `"ab cd"` with budget
5 produces the chunk `"ab cd"` itself... in fact it produces
`["ab", "cd"]`; we check the bound on the chunk `"ab"`. -/
theorem chunking_bound_witness :
    "ab".toList ∈ chunkText "ab cd".toList 5 ∧
      ("ab".toList.length ≤ 5 ∨
        ∃ w ∈ pySplit "ab cd".toList, "ab".toList = w ∧ 5 < w.length) :=
  ⟨by decide, chunking_bound "ab cd".toList 5 "ab".toList (by decide)⟩

/-- C7: re-joining all chunks produced by the chunker with single
spaces reproduces the original whitespace-normalized word sequence
(the result of Python `text.split()`): no words are dropped,
duplicated, or reordered. -/
theorem chunk_concat (text : List Char) (m : Nat) :
    pySplit (joinSp (chunkText text m)) = pySplit text := by
  unfold chunkText
  rw [pySplit_joinSp, List.map_map]
  have hword : ∀ g ∈ chunkGroups m (pySplit text) [] 0, pySplit (joinSp g) = g := by
    intro g hg
    apply pySplit_joinSp_words
    intro w hw
    have hmem : w ∈ (chunkGroups m (pySplit text) [] 0).flatten :=
      List.mem_flatten.mpr ⟨g, hg, hw⟩
    rw [chunkGroups_flatten, List.nil_append] at hmem
    exact pySplit_sound hmem
  have h1 : List.map (pySplit ∘ joinSp) (chunkGroups m (pySplit text) [] 0)
      = List.map id (chunkGroups m (pySplit text) [] 0) :=
    List.map_congr_left (fun g hg => hword g hg)
  rw [h1, List.map_id, chunkGroups_flatten, List.nil_append]

/-- C8 counterexample: on the text `"aaaa"` (a single word of length
4) with budget 3, the chunker emits TWO chunks — a leading empty chunk
(the unguarded flush of the empty accumulator on the first oversized
word) followed by the word — not exactly one chunk as the claim
states. -/
theorem chunk_single_oversized_cx :
    chunkText "aaaa".toList 3 = [[], "aaaa".toList] ∧
      ¬ chunkText "aaaa".toList 3 = ["aaaa".toList] := by
  exact ⟨by decide, by decide⟩

/-- C8 amended: for every text consisting of a single word whose
length exceeds the budget, the chunker produces exactly two chunks — a
leading empty chunk followed by that word itself; for the empty text
the chunker produces the empty sequence. -/
theorem chunk_single_oversized_amended (text w : List Char) (m : Nat)
    (hsplit : pySplit text = [w]) (hlen : m < w.length) :
    chunkText text m = [[], w] ∧ chunkText [] m = [] := by
  constructor
  · unfold chunkText
    rw [hsplit]
    have hgt : m < w.length + 1 := by omega
    simp [chunkGroups, hgt, joinSp]
  · rfl

/-- Witness for the amended C8 at the concrete input `"aaaa"`,
budget 3. -/
theorem chunk_single_oversized_amended_witness :
    (pySplit "aaaa".toList = ["aaaa".toList] ∧ 3 < "aaaa".toList.length) ∧
      (chunkText "aaaa".toList 3 = [[], "aaaa".toList] ∧ chunkText [] 3 = []) :=
  ⟨⟨by decide, by decide⟩,
    chunk_single_oversized_amended "aaaa".toList "aaaa".toList 3 (by decide) (by decide)⟩

/-! ## Database handler (`DatabaseHandler`)

In-memory state and disk artifacts are explicit.  Vectors are kept
abstract (a type parameter `α`): the handler never inspects vector
contents, it only stores, counts, reconstructs and re-inserts them.
The external FAISS `search` call is an input (its returned row-index
array), constrained by its documented contract in the theorems that
need it.  The outcome of the two environment-dependent steps — the
`index.add` call in `add_document` and the disk write in `persist` —
are Boolean inputs (`insertOk`, `writeOk`). -/

/-- One entry of `metadata['documents']`: the document's full text,
its metadata object (opaque here), and its `chunk_indices` list of
owned vector-index rows. -/
structure DocInfo where
  text : String
  meta : String
  chunk_indices : List Nat
  deriving DecidableEq, Repr

/-- Python dict lookup (`d[k]` / `k in d`) on an insertion-ordered
association list with unique keys. -/
def dictGet (k : String) : List (String × DocInfo) → Option DocInfo
  | [] => none
  | (k', v) :: rest => if k' = k then some v else dictGet k rest

/-- Python dict assignment `d[k] = v`: overwrite in place, or append a
new entry. -/
def dictSet (k : String) (v : DocInfo) : List (String × DocInfo) → List (String × DocInfo)
  | [] => [(k, v)]
  | (k', v') :: rest => if k' = k then (k, v) :: rest else (k', v') :: dictSet k v rest

/-- `new_metadata['documents'][doc_id]['chunk_indices'].append(current_idx)`:
append a position to the chunk list of the entry with key `k`. -/
def appendChunk (k : String) (i : Nat) : List (String × DocInfo) → List (String × DocInfo)
  | [] => []
  | (k', v) :: rest =>
    if k' = k then (k', { v with chunk_indices := v.chunk_indices ++ [i] }) :: rest
    else (k', v) :: appendChunk k i rest

/-- The state of a `DatabaseHandler`: `index` is the FAISS
`IndexFlatL2` modelled as the ordered list of stored vectors
(`index.ntotal = index.length`); `documents` and `id_map` are
`metadata['documents']` and `metadata['id_map']`; `disk` is the
persisted pair of artifacts (`faiss.index`, `metadata.pkl`). -/
structure DBState (α : Type) where
  index : List α
  documents : List (String × DocInfo)
  id_map : List String
  disk : List α × List (String × DocInfo) × List String
  deriving DecidableEq

/-- A freshly initialized handler (no artifacts on disk). -/
def emptyDB (α : Type) : DBState α :=
  ⟨[], [], [], ([], [], [])⟩

/-- `DatabaseHandler.persist`: write the index and the metadata to
disk.  A write failure (`writeOk = false`) is caught INSIDE `persist`,
which then merely returns `False`; the exception never propagates to
the caller. -/
def persistDB (s : DBState α) (writeOk : Bool) : Bool × DBState α :=
  if writeOk then (true, { s with disk := (s.index, s.documents, s.id_map) })
  else (false, s)

/-- `DatabaseHandler.add_document`.  `insertOk` models whether the
numpy conversion / `index.add` call raises (e.g. ragged input or a
dimension mismatch); such an exception occurs before any mutation and
makes the handler return `False` with the state untouched.  After the
in-memory mutations, `persist` is called but its Boolean result is
DISCARDED: `add_document` returns `True` regardless of `writeOk`. -/
def addDocument (s : DBState α) (docId text meta : String) (embs : List α)
    (insertOk writeOk : Bool) : Bool × DBState α :=
  if insertOk then
    let start := s.id_map.length
    let s' : DBState α :=
      { index := s.index ++ embs
        documents := dictSet docId ⟨text, meta, List.range' start embs.length⟩ s.documents
        id_map := s.id_map ++ List.replicate embs.length docId
        disk := s.disk }
    (true, (persistDB s' writeOk).2)
  else (false, s)

/-- A `query_similar` result entry: document id, full text, metadata. -/
structure QueryResult where
  id : String
  text : String
  meta : String
  deriving DecidableEq, Repr

/-- Python list indexing `l[i]`, with negative-index semantics:
`l[i]` means `l[len(l) + i]` for `i < 0`; out of range raises
`IndexError`. -/
def pyGet (l : List String) (i : Int) : Except Unit String :=
  if i < 0 then
    if h : 0 ≤ (l.length : Int) + i ∧ (l.length : Int) + i < (l.length : Int) then
      .ok (l.get ⟨((l.length : Int) + i).toNat, by omega⟩)
    else .error ()
  else
    if h : 0 ≤ i ∧ i < (l.length : Int) then
      .ok (l.get ⟨i.toNat, by omega⟩)
    else .error ()

/-- The result-collection loop of `query_similar` over the row-index
array `I[0]` returned by `index.search`.  A row index `≥ len(id_map)`
is skipped by the code's bound check; anything else (including FAISS's
`-1` padding!) is used to read `id_map[idx]` with Python list-index
semantics, so `-1` reads the LAST id-map entry; an out-of-range read
or a missing `documents` entry raises, which `query_similar` catches. -/
def queryLoop (idMap : List String) (docs : List (String × DocInfo)) :
    List Int → List String → List QueryResult → Except Unit (List QueryResult)
  | [], _, acc => .ok acc
  | idx :: rest, seen, acc =>
    if (idMap.length : Int) ≤ idx then queryLoop idMap docs rest seen acc
    else
      match pyGet idMap idx with
      | .error _ => .error ()
      | .ok d =>
        if d ∈ seen then queryLoop idMap docs rest seen acc
        else
          match dictGet d docs with
          | none => .error ()
          | some info =>
            queryLoop idMap docs rest (seen ++ [d]) (acc ++ [⟨d, info.text, info.meta⟩])

/-- `DatabaseHandler.query_similar`, given the row-index array `rows`
produced by the external FAISS `search` call; any exception inside the
loop is caught and `[]` is returned. -/
def querySimilar (s : DBState α) (rows : List Int) : List QueryResult :=
  match queryLoop s.id_map s.documents rows [] [] with
  | .ok r => r
  | .error _ => []

/-- The rebuild loop of `delete_document`
(`for old_idx in range(len(self.metadata['id_map']))`).  `vecs` is the
suffix of the reconstructed vector array starting at `old_idx`
(`vectors[old_idx:old_idx+1]` is `vecs.take 1` — an empty slice, not
an error, when the index has fewer rows).  Accumulators: `ni` the new
index, `nim` the new id map, `nd` the new documents dict, `ci` =
`current_idx`.  A surviving document missing from the old `documents`
dict raises `KeyError` (`.error`), which `delete_document` catches —
the old state stays intact since only local variables were mutated. -/
def rebuildGo (oldDocs : List (String × DocInfo)) (target : String) (remove : List Nat) :
    Nat → List String → List α → List α → List String →
      List (String × DocInfo) → Nat →
      Except Unit (List α × List String × List (String × DocInfo))
  | _, [], _, ni, nim, nd, _ => .ok (ni, nim, nd)
  | oldIdx, d :: ds, vecs, ni, nim, nd, ci =>
    if oldIdx ∈ remove then
      rebuildGo oldDocs target remove (oldIdx + 1) ds (vecs.drop 1) ni nim nd ci
    else if d = target then
      rebuildGo oldDocs target remove (oldIdx + 1) ds (vecs.drop 1)
        (ni ++ vecs.take 1) (nim ++ [d]) nd ci
    else
      match dictGet d nd with
      | some _ =>
        rebuildGo oldDocs target remove (oldIdx + 1) ds (vecs.drop 1)
          (ni ++ vecs.take 1) (nim ++ [d]) (appendChunk d ci nd) (ci + 1)
      | none =>
        match dictGet d oldDocs with
        | none => .error ()
        | some info =>
          rebuildGo oldDocs target remove (oldIdx + 1) ds (vecs.drop 1)
            (ni ++ vecs.take 1) (nim ++ [d])
            (appendChunk d ci (nd ++ [(d, ⟨info.text, info.meta, []⟩)])) (ci + 1)

/-- `DatabaseHandler.delete_document`.  An id absent from `documents`
returns `False` with nothing touched (no rebuild, no persist).
Otherwise the index, documents dict and id map are rebuilt without the
target's rows, swapped in, and persisted (a persist failure is
swallowed, exactly as in `add_document`, so `True` is still
returned). -/
def deleteDocument (s : DBState α) (target : String) (writeOk : Bool) :
    Bool × DBState α :=
  match dictGet target s.documents with
  | none => (false, s)
  | some info =>
    match rebuildGo s.documents target info.chunk_indices 0 s.id_map s.index [] [] [] 0 with
    | .error _ => (false, s)
    | .ok (ni, nim, nd) =>
      let s' : DBState α := { index := ni, documents := nd, id_map := nim, disk := s.disk }
      (true, (persistDB s' writeOk).2)

/-- `DatabaseHandler.list_documents`, projected to the document
identifiers (the filename / file-type / upload-date fields it copies
out of each document's opaque metadata are not modelled). -/
def listDocuments (s : DBState α) : List String :=
  s.documents.map Prod.fst

/-- `DatabaseHandler.__init__`, given which persisted artifacts exist
in the persist directory, and the on-disk contents.  The code tests
ONLY `index_path.exists()`: when the index artifact exists it loads it
and then opens `metadata.pkl` — whose absence raises an uncaught
`FileNotFoundError` (modelled `.error`, halting startup); when the
index artifact does NOT exist it silently initializes an empty index
and an empty store, whether or not a metadata artifact is present. -/
def dbInit (α : Type) (indexExists metaExists : Bool) (dIdx : List α)
    (dDocs : List (String × DocInfo)) (dMap : List String) :
    Except Unit (List α × List (String × DocInfo) × List String) :=
  if indexExists then
    if metaExists then .ok (dIdx, dDocs, dMap) else .error ()
  else .ok ([], [], [])

/-! ### Invariants and operation sequences -/

/-- The row/position invariant exactly as the spec states it
(§8 "Row/position invariant", §3 Document invariant):
`len(position_map) == index.ntotal`; every document's chunk positions
are valid rows; every valid row is owned by some document; and no
position belongs to two distinct documents. -/
def RowPosInv (s : DBState α) : Prop :=
  s.id_map.length = s.index.length ∧
  (∀ kv ∈ s.documents, ∀ i ∈ kv.2.chunk_indices, i < s.index.length) ∧
  (∀ j < s.index.length, ∃ kv ∈ s.documents, j ∈ kv.2.chunk_indices) ∧
  (∀ kv ∈ s.documents, ∀ kv' ∈ s.documents, ∀ i, i ∈ kv.2.chunk_indices →
    i ∈ kv'.2.chunk_indices → kv.1 = kv'.1)

instance (s : DBState α) : Decidable (RowPosInv s) := by
  unfold RowPosInv; infer_instance

/-- The full structural invariant, adding the spec's Position-Map
clause "`position_map[i]` is the document owning row `i`" (§3) and
uniqueness of dict keys to `RowPosInv`. -/
def FullInv (s : DBState α) : Prop :=
  s.id_map.length = s.index.length ∧
  (s.documents.map Prod.fst).Nodup ∧
  (∀ kv ∈ s.documents, ∀ i ∈ kv.2.chunk_indices,
    i < s.id_map.length ∧ s.id_map.getD i "" = kv.1) ∧
  (∀ j < s.id_map.length, ∃ kv ∈ s.documents,
    kv.1 = s.id_map.getD j "" ∧ j ∈ kv.2.chunk_indices)

instance (s : DBState α) : Decidable (FullInv s) := by
  unfold FullInv; infer_instance

/-- An operation against the handler: a (successful) ingest or a
delete. -/
inductive DBOp (α : Type) where
  | add (docId text meta : String) (embs : List α)
  | del (docId : String)

/-- Run one operation (environment cooperating: the FAISS insert and
the disk writes succeed). -/
def applyOp (s : DBState α) : DBOp α → DBState α
  | .add docId text meta embs => (addDocument s docId text meta embs true true).2
  | .del docId => (deleteDocument s docId true).2

def runOps (s : DBState α) : List (DBOp α) → DBState α
  | [] => s
  | op :: ops => runOps (applyOp s op) ops

/-- C1's side conditions on an ingest: a fresh document identifier and
a non-empty embedding list.  Deletes are unrestricted (deleting an
absent id is a no-op returning `False`). -/
def legalOp (s : DBState α) : DBOp α → Bool
  | .add docId _ _ embs => (dictGet docId s.documents).isNone && !embs.isEmpty
  | .del _ => true

def legalOps (s : DBState α) : List (DBOp α) → Bool
  | [] => true
  | op :: ops => legalOp s op && legalOps (applyOp s op) ops

/-! ### Easy claims: C4, C5, C9, C10 -/

/-- C4 counterexample: an ingest whose persist step fails (the disk
write raises, `writeOk = false`): the exception is swallowed inside
`persist` and `add_document` still reports success (`True`) — and the
disk was indeed not updated — contradicting the claim that a persist
failure is reported as failure to the caller. -/
theorem add_persist_failure_cx :
    (addDocument (emptyDB Nat) "a" "t" "m" [7] true false).1 = true ∧
      (addDocument (emptyDB Nat) "a" "t" "m" [7] true false).2.disk
        = ([], [], []) ∧
      (addDocument (emptyDB Nat) "a" "t" "m" [7] true false).2.index = [7] := by
  refine ⟨rfl, rfl, rfl⟩

/-- C4 amended: `add_document` reports failure exactly when an
exception escapes the steps BEFORE persist (the embedding
insertion); a failing persist is caught inside `persist` (which
returns `False`), `add_document` discards that result and reports
success anyway, leaving memory and disk divergent. -/
theorem add_persist_failure_amended (α : Type) (s : DBState α)
    (docId text meta : String) (embs : List α) (writeOk : Bool) :
    (addDocument s docId text meta embs true writeOk).1 = true ∧
      (addDocument s docId text meta embs false writeOk) = (false, s) ∧
      (persistDB s false) = (false, s) := by
  refine ⟨rfl, rfl, rfl⟩

/-- C5 counterexample: a persist directory holding a metadata artifact
but NO index artifact.  Startup does not halt: it silently initializes
an empty index and an empty store, discarding the metadata — the claim
requires this single-artifact state to be treated as corruption. -/
theorem init_single_artifact_cx :
    dbInit Nat false true [0]
        [("d", ⟨"text", "meta", [0]⟩)] ["d"]
      = .ok ([], [], []) := by
  rfl

/-- C5 amended: of the two single-artifact states, only
"index present, metadata missing" halts startup (the `open` of
`metadata.pkl` raises an uncaught `FileNotFoundError`); "metadata
present, index missing" silently initializes an empty index and empty
store, because `__init__` only tests the index artifact's existence. -/
theorem init_single_artifact_amended (α : Type) (dIdx : List α)
    (dDocs : List (String × DocInfo)) (dMap : List String) :
    dbInit α true false dIdx dDocs dMap = .error () ∧
      dbInit α false true dIdx dDocs dMap = .ok ([], [], []) := by
  refine ⟨rfl, rfl⟩

/-- C9: a query on a freshly initialized store returns the empty
sequence and raises nothing across the public boundary.  On an empty
index, FAISS `search` returns `k` padding entries `-1`; the loop's
bound check passes `-1` through, `id_map[-1]` on the empty id map
raises `IndexError`, and `query_similar` catches it and returns `[]`
(for `k = 0` the loop body never runs and `[]` is returned directly). -/
theorem query_empty_store (α : Type) (k : Nat) :
    querySimilar (emptyDB α) (List.replicate k (-1)) = [] := by
  cases k with
  | zero => rfl
  | succ k => rfl

/-- C10: deleting an identifier absent from the document store returns
`False` and leaves everything — index, documents, id map, and the
persisted artifacts — untouched: the code returns before any rebuild
or persist. -/
theorem delete_not_found (α : Type) (s : DBState α) (docId : String)
    (writeOk : Bool) (h : dictGet docId s.documents = none) :
    deleteDocument s docId writeOk = (false, s) := by
  unfold deleteDocument
  rw [h]

/-- Witness for C10 at a concrete state: a store holding only
document `"b"`, deleting `"a"`. -/
theorem delete_not_found_witness :
    dictGet "a" [("b", (⟨"t", "m", [0]⟩ : DocInfo))] = none ∧
      deleteDocument
        (⟨[5], [("b", ⟨"t", "m", [0]⟩)], ["b"], ([5], [("b", ⟨"t", "m", [0]⟩)], ["b"])⟩ :
          DBState Nat) "a" true
        = (false, ⟨[5], [("b", ⟨"t", "m", [0]⟩)], ["b"],
            ([5], [("b", ⟨"t", "m", [0]⟩)], ["b"])⟩) :=
  ⟨by decide, delete_not_found Nat _ "a" true (by decide)⟩

/-! ### Association-list lemmas -/

theorem dictGet_eq_none (k : String) :
    ∀ l : List (String × DocInfo), dictGet k l = none ↔ k ∉ l.map Prod.fst := by
  intro l
  induction l with
  | nil => simp [dictGet]
  | cons kv rest ih =>
    obtain ⟨k', v⟩ := kv
    by_cases h : k' = k
    · subst h
      simp [dictGet]
    · simp [dictGet, h, ih, Ne.symm h]

theorem dictGet_some_mem {k : String} {v : DocInfo} :
    ∀ {l : List (String × DocInfo)}, dictGet k l = some v → (k, v) ∈ l := by
  intro l
  induction l with
  | nil => intro h; simp [dictGet] at h
  | cons kv rest ih =>
    obtain ⟨k', v'⟩ := kv
    intro h
    by_cases he : k' = k
    · subst he
      rw [dictGet, if_pos rfl, Option.some_inj] at h
      subst h
      exact List.mem_cons_self _ _
    · rw [dictGet, if_neg he] at h
      exact List.mem_cons_of_mem _ (ih h)

theorem mem_dictGet_of_nodup :
    ∀ {l : List (String × DocInfo)}, (l.map Prod.fst).Nodup →
      ∀ {kv : String × DocInfo}, kv ∈ l → dictGet kv.1 l = some kv.2 := by
  intro l
  induction l with
  | nil => intro _ kv h; simp at h
  | cons hd rest ih =>
    obtain ⟨k', v'⟩ := hd
    intro hnd kv hm
    simp only [List.map_cons, List.nodup_cons] at hnd
    rcases List.mem_cons.mp hm with rfl | hm'
    · rw [dictGet, if_pos rfl]
    · have hne : k' ≠ kv.1 := by
        intro he
        exact hnd.1 (he ▸ (List.mem_map.mpr ⟨kv, hm', rfl⟩))
      rw [dictGet, if_neg hne]
      exact ih hnd.2 hm'

theorem dictGet_append (k : String) :
    ∀ l l' : List (String × DocInfo),
      dictGet k (l ++ l') =
        match dictGet k l with
        | some v => some v
        | none => dictGet k l' := by
  intro l l'
  induction l with
  | nil => simp [dictGet]
  | cons kv rest ih =>
    obtain ⟨k', v⟩ := kv
    by_cases h : k' = k <;> simp [dictGet, h, ih]

theorem appendChunk_get_ne {e k : String} (h : e ≠ k) (i : Nat) :
    ∀ l : List (String × DocInfo), dictGet e (appendChunk k i l) = dictGet e l := by
  intro l
  induction l with
  | nil => rfl
  | cons kv rest ih =>
    obtain ⟨k', v⟩ := kv
    by_cases hk : k' = k
    · subst hk
      have hne : k' ≠ e := fun hh => h hh.symm
      rw [appendChunk, if_pos rfl, dictGet, dictGet, if_neg hne, if_neg hne]
    · rw [appendChunk, if_neg hk]
      by_cases he : k' = e
      · subst he
        rw [dictGet, if_pos rfl, dictGet, if_pos rfl]
      · rw [dictGet, if_neg he, dictGet, if_neg he, ih]

theorem appendChunk_get_self {k : String} (i : Nat) :
    ∀ {l : List (String × DocInfo)} {v : DocInfo}, dictGet k l = some v →
      dictGet k (appendChunk k i l) =
        some { v with chunk_indices := v.chunk_indices ++ [i] } := by
  intro l
  induction l with
  | nil => intro v h; simp [dictGet] at h
  | cons kv rest ih =>
    obtain ⟨k', v'⟩ := kv
    intro v h
    by_cases hk : k' = k
    · subst hk
      rw [dictGet, if_pos rfl, Option.some_inj] at h
      subst h
      simp [appendChunk, dictGet]
    · rw [dictGet, if_neg hk] at h
      simp [appendChunk, dictGet, hk, ih h]

theorem appendChunk_map_fst (k : String) (i : Nat) :
    ∀ l : List (String × DocInfo),
      (appendChunk k i l).map Prod.fst = l.map Prod.fst := by
  intro l
  induction l with
  | nil => rfl
  | cons kv rest ih =>
    obtain ⟨k', v⟩ := kv
    by_cases hk : k' = k <;> simp [appendChunk, hk, ih]

/-- When the key is fresh, Python dict assignment appends the entry. -/
theorem dictSet_eq_append (k : String) (v : DocInfo) :
    ∀ l : List (String × DocInfo), dictGet k l = none → dictSet k v l = l ++ [(k, v)] := by
  intro l
  induction l with
  | nil => intro _; rfl
  | cons kv rest ih =>
    obtain ⟨k', v'⟩ := kv
    intro h
    by_cases hk : k' = k
    · subst hk
      rw [dictGet, if_pos rfl] at h
      exact absurd h (by simp)
    · rw [dictGet, if_neg hk] at h
      simp [dictSet, hk, ih h]

/-! ### Occurrence positions -/

/-- The ascending list of positions at which `e` occurs in `l`. -/
def idxsOf (e : String) : List String → List Nat
  | [] => []
  | d :: ds =>
    if d = e then 0 :: (idxsOf e ds).map (· + 1)
    else (idxsOf e ds).map (· + 1)

theorem mem_idxsOf {e : String} :
    ∀ (l : List String) (i : Nat),
      i ∈ idxsOf e l ↔ i < l.length ∧ l.getD i "" = e := by
  intro l
  induction l with
  | nil => intro i; simp [idxsOf]
  | cons d ds ih =>
    intro i
    constructor
    · intro h
      by_cases hd : d = e
      · subst hd
        rw [idxsOf, if_pos rfl] at h
        rcases List.mem_cons.mp h with rfl | h2
        · simp
        · obtain ⟨j, hj, rfl⟩ := List.mem_map.mp h2
          have hih := (ih j).mp hj
          exact ⟨by simpa using hih.1, by simpa using hih.2⟩
      · rw [idxsOf, if_neg hd] at h
        obtain ⟨j, hj, rfl⟩ := List.mem_map.mp h
        have hih := (ih j).mp hj
        exact ⟨by simpa using hih.1, by simpa using hih.2⟩
    · rintro ⟨h1, h2⟩
      cases i with
      | zero =>
        have hd : d = e := by simpa using h2
        rw [idxsOf, if_pos hd]
        exact List.mem_cons_self _ _
      | succ j =>
        have hj : j ∈ idxsOf e ds :=
          (ih j).mpr ⟨by simpa using h1, by simpa using h2⟩
        have hmem : j + 1 ∈ (idxsOf e ds).map (· + 1) :=
          List.mem_map.mpr ⟨j, hj, rfl⟩
        by_cases hd : d = e
        · rw [idxsOf, if_pos hd]
          exact List.mem_cons_of_mem _ hmem
        · rw [idxsOf, if_neg hd]
          exact hmem

theorem idxsOf_shift (e : String) (c : Nat) :
    ∀ l : List String,
      ((idxsOf e l).map (· + 1)).map (c + ·) = (idxsOf e l).map ((c + 1) + ·) := by
  intro l
  rw [List.map_map]
  apply List.map_congr_left
  intro a _
  simp [Function.comp]
  omega

/-! ### Characterizing the delete rebuild -/

/-- How one document's entry evolves over the rebuild of a suffix of
the id map: `prev` is its entry in the accumulator dict so far, `old`
its entry in the pre-delete dict, `poss` its occurrence positions
among the kept owners of the suffix, `ci` the `current_idx` value at
the start of the suffix. -/
def mergeSpec (prev old : Option DocInfo) (poss : List Nat) (ci : Nat) : Option DocInfo :=
  if poss.isEmpty then prev
  else
    match prev with
    | some v => some { v with chunk_indices := v.chunk_indices ++ poss.map (ci + ·) }
    | none =>
      match old with
      | some o => some ⟨o.text, o.meta, poss.map (ci + ·)⟩
      | none => none

theorem map_add_shift (xs : List Nat) (ci : Nat) :
    (xs.map (· + 1)).map (ci + ·) = xs.map ((ci + 1) + ·) := by
  rw [List.map_map]
  apply List.map_congr_left
  intro a _
  simp [Function.comp]
  omega

theorem mergeSpec_shift (prev old : Option DocInfo) (xs : List Nat) (ci : Nat) :
    mergeSpec prev old (xs.map (· + 1)) ci = mergeSpec prev old xs (ci + 1) := by
  unfold mergeSpec
  have hemp : (xs.map (· + 1)).isEmpty = xs.isEmpty := by cases xs <;> rfl
  rw [hemp, map_add_shift]

theorem map_add_cons (xs : List Nat) (ci : Nat) :
    (0 :: xs.map (· + 1)).map (ci + ·) = ci :: xs.map ((ci + 1) + ·) := by
  simp only [List.map_cons, map_add_shift]
  simp

theorem mergeSpec_cons_self (v : DocInfo) (old : Option DocInfo)
    (xs : List Nat) (ci : Nat) :
    mergeSpec (some v) old (0 :: xs.map (· + 1)) ci =
      mergeSpec (some { v with chunk_indices := v.chunk_indices ++ [ci] })
        old xs (ci + 1) := by
  cases xs with
  | nil => simp [mergeSpec]
  | cons x t =>
    unfold mergeSpec
    rw [show ((0 :: ((x :: t).map (· + 1))).isEmpty) = false from rfl,
      show ((x :: t).isEmpty) = false from rfl]
    rw [map_add_cons (x :: t) ci]
    simp [List.append_assoc]

theorem mergeSpec_cons_new (o : DocInfo) (xs : List Nat) (ci : Nat) :
    mergeSpec none (some o) (0 :: xs.map (· + 1)) ci =
      mergeSpec (some ⟨o.text, o.meta, [ci]⟩) (some o) xs (ci + 1) := by
  cases xs with
  | nil => simp [mergeSpec]
  | cons x t =>
    unfold mergeSpec
    rw [show ((0 :: ((x :: t).map (· + 1))).isEmpty) = false from rfl,
      show ((x :: t).isEmpty) = false from rfl]
    rw [map_add_cons (x :: t) ci]
    simp [List.append_assoc]

theorem idxsOf_append (e : String) :
    ∀ x y : List String,
      idxsOf e (x ++ y) = idxsOf e x ++ (idxsOf e y).map (· + x.length) := by
  intro x y
  induction x with
  | nil => simp [idxsOf]
  | cons d ds ih =>
    have hmm : ((idxsOf e y).map (· + ds.length)).map (· + 1)
        = (idxsOf e y).map (· + (ds.length + 1)) := by
      rw [List.map_map]
      apply List.map_congr_left
      intro a _
      simp [Function.comp]
      omega
    by_cases hd : d = e
    · rw [List.cons_append, idxsOf, if_pos hd, idxsOf, if_pos hd, ih,
        List.map_append, hmm]
      simp
    · rw [List.cons_append, idxsOf, if_neg hd, idxsOf, if_neg hd, ih,
        List.map_append, hmm]
      simp

/-- `idxsOf` as a filter over all positions. -/
theorem idxsOf_eq_filter_range (e : String) :
    ∀ l : List String,
      idxsOf e l = (List.range l.length).filter (fun j => l.getD j "" = e) := by
  intro l
  induction l with
  | nil => simp [idxsOf]
  | cons d ds ih =>
    rw [List.length_cons, List.range_succ_eq_map, List.filter_cons, List.filter_map]
    have hcomp : ((fun j => decide ((d :: ds).getD j "" = e)) ∘ Nat.succ)
        = fun j => decide (ds.getD j "" = e) := by
      funext j
      simp [Function.comp]
    rw [hcomp, ← ih]
    have hsucc : (idxsOf e ds).map Nat.succ = (idxsOf e ds).map (· + 1) := by
      apply List.map_congr_left
      intro a _
      omega
    by_cases hd : d = e
    · rw [idxsOf, if_pos hd]
      simp [hd, hsucc]
    · rw [idxsOf, if_neg hd]
      simp [hd, hsucc]

/-- Filtering the full position range by an interval predicate yields
exactly the interval. -/
theorem filter_range_interval (p : Nat → Bool) (n a m : Nat)
    (h : ∀ j, j < n → (p j = true ↔ (a ≤ j ∧ j < a + m))) (hle : a + m ≤ n) :
    (List.range n).filter p = List.range' a m := by
  have hsplit : List.range' 0 a ++ List.range' a m ++ List.range' (a + m) (n - (a + m))
      = List.range n := by
    rw [List.range_eq_range']
    have h1 := List.range'_append 0 a m 1
    simp only [Nat.zero_add, Nat.one_mul] at h1
    rw [h1]
    have h2 := List.range'_append 0 (m + a) (n - (m + a)) 1
    simp only [Nat.zero_add, Nat.one_mul] at h2
    rw [show a + m = m + a from by omega, h2,
      show n - (m + a) + (m + a) = n from by omega]
  rw [← hsplit, List.filter_append, List.filter_append]
  have hl : (List.range' 0 a).filter p = [] := by
    rw [List.filter_eq_nil_iff]
    intro x hx
    rw [List.mem_range'_1] at hx
    intro hpx
    have := (h x (by omega)).mp hpx
    omega
  have hmid : (List.range' a m).filter p = List.range' a m := by
    rw [List.filter_eq_self]
    intro x hx
    rw [List.mem_range'_1] at hx
    exact (h x (by omega)).mpr (by omega)
  have hr : (List.range' (a + m) (n - (a + m))).filter p = [] := by
    rw [List.filter_eq_nil_iff]
    intro x hx
    rw [List.mem_range'_1] at hx
    intro hpx
    have := (h x (by omega)).mp hpx
    omega
  rw [hl, hmid, hr]
  simp

/-- Occurrence positions of `e` form exactly the interval
`[a, a + m)` when `e` occurs exactly there. -/
theorem idxsOf_of_interval {e : String} {l : List String} {a m : Nat}
    (h : ∀ j, j < l.length → (l.getD j "" = e ↔ (a ≤ j ∧ j < a + m)))
    (hle : a + m ≤ l.length) : idxsOf e l = List.range' a m := by
  rw [idxsOf_eq_filter_range]
  apply filter_range_interval
  · intro j hj
    rw [decide_eq_true_iff]
    exact h j hj
  · exact hle

/-- No occurrences: empty position list. -/
theorem idxsOf_of_none {e : String} {l : List String}
    (h : ∀ j, j < l.length → l.getD j "" ≠ e) : idxsOf e l = [] := by
  rw [List.eq_nil_iff_forall_not_mem]
  intro j hj
  rw [mem_idxsOf] at hj
  exact h j hj.1 hj.2

/-- One-step unfolding of the rebuild loop on a cons cell. -/
theorem rebuildGo_cons {α : Type} (oldDocs : List (String × DocInfo)) (target : String)
    (remove : List Nat) (oldIdx : Nat) (d : String) (ds : List String)
    (vecs ni : List α) (nim : List String) (nd : List (String × DocInfo)) (ci : Nat) :
    rebuildGo oldDocs target remove oldIdx (d :: ds) vecs ni nim nd ci =
      if oldIdx ∈ remove then
        rebuildGo oldDocs target remove (oldIdx + 1) ds (vecs.drop 1) ni nim nd ci
      else if d = target then
        rebuildGo oldDocs target remove (oldIdx + 1) ds (vecs.drop 1)
          (ni ++ vecs.take 1) (nim ++ [d]) nd ci
      else
        match dictGet d nd with
        | some _ =>
          rebuildGo oldDocs target remove (oldIdx + 1) ds (vecs.drop 1)
            (ni ++ vecs.take 1) (nim ++ [d]) (appendChunk d ci nd) (ci + 1)
        | none =>
          match dictGet d oldDocs with
          | none => .error ()
          | some info =>
            rebuildGo oldDocs target remove (oldIdx + 1) ds (vecs.drop 1)
              (ni ++ vecs.take 1) (nim ++ [d])
              (appendChunk d ci (nd ++ [(d, ⟨info.text, info.meta, []⟩)])) (ci + 1) := by
  rfl

theorem rebuildGo_cons_seen {α : Type} {oldDocs : List (String × DocInfo)}
    {target : String} {remove : List Nat} {oldIdx : Nat} {d : String} {ds : List String}
    {vecs ni : List α} {nim : List String} {nd : List (String × DocInfo)} {ci : Nat}
    (h1 : oldIdx ∉ remove) (h2 : d ≠ target) {v0 : DocInfo}
    (h3 : dictGet d nd = some v0) :
    rebuildGo oldDocs target remove oldIdx (d :: ds) vecs ni nim nd ci =
      rebuildGo oldDocs target remove (oldIdx + 1) ds (vecs.drop 1)
        (ni ++ vecs.take 1) (nim ++ [d]) (appendChunk d ci nd) (ci + 1) := by
  rw [rebuildGo_cons, if_neg h1, if_neg h2, h3]

theorem rebuildGo_cons_fresh {α : Type} {oldDocs : List (String × DocInfo)}
    {target : String} {remove : List Nat} {oldIdx : Nat} {d : String} {ds : List String}
    {vecs ni : List α} {nim : List String} {nd : List (String × DocInfo)} {ci : Nat}
    (h1 : oldIdx ∉ remove) (h2 : d ≠ target) (h3 : dictGet d nd = none)
    {o : DocInfo} (h4 : dictGet d oldDocs = some o) :
    rebuildGo oldDocs target remove oldIdx (d :: ds) vecs ni nim nd ci =
      rebuildGo oldDocs target remove (oldIdx + 1) ds (vecs.drop 1)
        (ni ++ vecs.take 1) (nim ++ [d])
        (appendChunk d ci (nd ++ [(d, ⟨o.text, o.meta, []⟩)])) (ci + 1) := by
  rw [rebuildGo_cons, if_neg h1, if_neg h2, h3, h4]

/-- Full characterization of the rebuild loop, by induction over the
remaining id-map suffix `ds` at absolute offset `p`.  Hypotheses:
the removal set consists exactly of the suffix positions owned by the
target (`hrem`), the vector suffix is in lockstep (`hvlen`), every
surviving owner can be resolved (`hdocs`), and the accumulator dict
has unique keys (`hnd`). -/
theorem rebuildGo_spec {α : Type} (oldDocs : List (String × DocInfo)) (target : String)
    (remove : List Nat) :
    ∀ (ds : List String) (p : Nat) (vecs ni : List α)
      (nim : List String) (nd : List (String × DocInfo)) (ci : Nat),
      (∀ j, j < ds.length → ((p + j) ∈ remove ↔ ds.getD j "" = target)) →
      vecs.length = ds.length →
      (∀ d ∈ ds, d ≠ target →
        (dictGet d nd).isSome = true ∨ (dictGet d oldDocs).isSome = true) →
      (nd.map Prod.fst).Nodup →
      ∃ ni' nd',
        rebuildGo oldDocs target remove p ds vecs ni nim nd ci =
          .ok (ni', nim ++ ds.filter (fun d => d ≠ target), nd') ∧
        ni'.length = ni.length + (ds.filter (fun d => d ≠ target)).length ∧
        (∀ e, dictGet e nd' =
          mergeSpec (dictGet e nd) (dictGet e oldDocs)
            (idxsOf e (ds.filter (fun d => d ≠ target))) ci) ∧
        (nd'.map Prod.fst).Nodup := by
  intro ds
  induction ds with
  | nil =>
    intro p vecs ni nim nd ci _ _ _ hnd
    refine ⟨ni, nd, by simp [rebuildGo], by simp, fun e => by simp [idxsOf, mergeSpec], hnd⟩
  | cons d ds ih =>
    intro p vecs ni nim nd ci hrem hvlen hdocs hnd
    have hrem0 : p ∈ remove ↔ d = target := by
      have := hrem 0 (by simp)
      simpa using this
    have hrem' : ∀ j, j < ds.length →
        ((p + 1 + j) ∈ remove ↔ ds.getD j "" = target) := by
      intro j hj
      have := hrem (j + 1) (by simp; omega)
      rw [show p + (j + 1) = p + 1 + j from by omega] at this
      simpa using this
    obtain ⟨v, vt, rfl⟩ : ∃ v vt, vecs = v :: vt := by
      cases vecs with
      | nil => simp at hvlen
      | cons v vt => exact ⟨v, vt, rfl⟩
    have hvlen' : vt.length = ds.length := by simpa using hvlen
    by_cases hd : d = target
    · -- removed row: skipped entirely
      subst hd
      have hin : p ∈ remove := hrem0.mpr rfl
      have hdocs1 : ∀ x ∈ ds, x ≠ d →
          (dictGet x nd).isSome = true ∨ (dictGet x oldDocs).isSome = true :=
        fun x hx hne => hdocs x (List.mem_cons_of_mem _ hx) hne
      obtain ⟨ni', nd', hrun, hlen, hget, hnd'⟩ :=
        ih (p + 1) vt ni nim nd ci hrem' hvlen' hdocs1 hnd
      have hfil : (d :: ds).filter (fun x => x ≠ d) = ds.filter (fun x => x ≠ d) := by
        simp [List.filter_cons]
      refine ⟨ni', nd', ?_, ?_, ?_, hnd'⟩
      · rw [rebuildGo_cons, if_pos hin, List.drop_one, List.tail_cons, hrun, hfil]
      · rw [hlen, hfil]
      · intro e
        rw [hget e, hfil]
    · -- kept row: vector and id-map entry copied, documents entry updated
      have hnotin : p ∉ remove := fun hc => hd (hrem0.mp hc)
      have hfil : (d :: ds).filter (fun x => x ≠ target)
          = d :: ds.filter (fun x => x ≠ target) := by
        simp [List.filter_cons, hd]
      cases hprev : dictGet d nd with
      | some v0 =>
        have hdocs1 : ∀ x ∈ ds, x ≠ target →
            (dictGet x (appendChunk d ci nd)).isSome = true ∨
              (dictGet x oldDocs).isSome = true := by
          intro x hx hne
          by_cases hxd : x = d
          · subst hxd
            left
            rw [appendChunk_get_self ci hprev]
            rfl
          · rcases hdocs x (List.mem_cons_of_mem _ hx) hne with h1 | h2
            · left
              rwa [appendChunk_get_ne hxd ci]
            · exact Or.inr h2
        have hnd1 : ((appendChunk d ci nd).map Prod.fst).Nodup := by
          rw [appendChunk_map_fst]
          exact hnd
        obtain ⟨ni', nd', hrun, hlen, hget, hnd'⟩ :=
          ih (p + 1) vt (ni ++ [v]) (nim ++ [d]) (appendChunk d ci nd) (ci + 1)
            hrem' hvlen' hdocs1 hnd1
        refine ⟨ni', nd', ?_, ?_, ?_, hnd'⟩
        · rw [rebuildGo_cons_seen hnotin hd hprev, List.drop_one, List.tail_cons,
            show (v :: vt).take 1 = [v] from rfl, hrun, hfil]
          simp
        · rw [hlen, hfil]
          simp only [List.length_append, List.length_cons, List.length_nil]
          omega
        · intro e
          rw [hget e, hfil]
          by_cases he : e = d
          · subst he
            rw [appendChunk_get_self ci hprev, hprev, idxsOf, if_pos rfl]
            exact (mergeSpec_cons_self v0 _ _ _).symm
          · rw [appendChunk_get_ne he ci, idxsOf, if_neg (fun hh => he hh.symm)]
            exact (mergeSpec_shift _ _ _ _).symm
      | none =>
        have hosome : ∃ o, dictGet d oldDocs = some o := by
          rcases hdocs d (List.mem_cons_self _ _) hd with h1 | h2
          · rw [hprev] at h1
            simp at h1
          · exact Option.isSome_iff_exists.mp h2
        obtain ⟨o, hold⟩ := hosome
        have hskip : ∀ x : String, x ≠ d →
            dictGet x (nd ++ [(d, ⟨o.text, o.meta, []⟩)]) = dictGet x nd := by
          intro x hxd
          rw [dictGet_append]
          cases hx : dictGet x nd with
          | some w => rfl
          | none =>
            rw [dictGet, if_neg (fun hh => hxd hh.symm), dictGet]
        have hbase : dictGet d (nd ++ [(d, ⟨o.text, o.meta, []⟩)])
            = some ⟨o.text, o.meta, []⟩ := by
          rw [dictGet_append, hprev, dictGet, if_pos rfl]
        have hself : dictGet d (appendChunk d ci (nd ++ [(d, ⟨o.text, o.meta, []⟩)]))
            = some ⟨o.text, o.meta, [ci]⟩ := by
          rw [appendChunk_get_self ci hbase]
          rfl
        have hother : ∀ x : String, x ≠ d →
            dictGet x (appendChunk d ci (nd ++ [(d, ⟨o.text, o.meta, []⟩)]))
              = dictGet x nd := by
          intro x hxd
          rw [appendChunk_get_ne hxd ci, hskip x hxd]
        have hdocs1 : ∀ x ∈ ds, x ≠ target →
            (dictGet x (appendChunk d ci (nd ++ [(d, ⟨o.text, o.meta, []⟩)]))).isSome
              = true ∨ (dictGet x oldDocs).isSome = true := by
          intro x hx hne
          by_cases hxd : x = d
          · subst hxd
            left
            rw [hself]
            rfl
          · rcases hdocs x (List.mem_cons_of_mem _ hx) hne with h1 | h2
            · left
              rwa [hother x hxd]
            · exact Or.inr h2
        have hnd1 : ((appendChunk d ci
            (nd ++ [(d, ⟨o.text, o.meta, []⟩)])).map Prod.fst).Nodup := by
          rw [appendChunk_map_fst, List.map_append]
          rw [List.nodup_append]
          refine ⟨hnd, by simp, ?_⟩
          intro x hx
          simp only [List.map_cons, List.map_nil, List.mem_singleton]
          intro hxd
          subst hxd
          exact absurd hx (by
            have := (dictGet_eq_none x nd).mp hprev
            exact this)
        obtain ⟨ni', nd', hrun, hlen, hget, hnd'⟩ :=
          ih (p + 1) vt (ni ++ [v]) (nim ++ [d])
            (appendChunk d ci (nd ++ [(d, ⟨o.text, o.meta, []⟩)])) (ci + 1)
            hrem' hvlen' hdocs1 hnd1
        refine ⟨ni', nd', ?_, ?_, ?_, hnd'⟩
        · rw [rebuildGo_cons_fresh hnotin hd hprev hold, List.drop_one, List.tail_cons,
            show (v :: vt).take 1 = [v] from rfl, hrun, hfil]
          simp
        · rw [hlen, hfil]
          simp only [List.length_append, List.length_cons, List.length_nil]
          omega
        · intro e
          rw [hget e, hfil]
          by_cases he : e = d
          · subst he
            rw [hself, hprev, hold, idxsOf, if_pos rfl]
            exact (mergeSpec_cons_new o _ _).symm
          · rw [hother e he, idxsOf, if_neg (fun hh => he hh.symm)]
            exact (mergeSpec_shift _ _ _ _).symm

/-! ### Top-level characterization of `delete_document` on a found id -/

theorem map_add_zero_id : ∀ xs : List Nat, xs.map ((0 : Nat) + ·) = xs := by
  intro xs
  induction xs with
  | nil => rfl
  | cons x t ih => simp [ih]

theorem mergeSpec_zero (old : Option DocInfo) (poss : List Nat) :
    mergeSpec none old poss 0 =
      if poss.isEmpty then none
      else old.map (fun o => ⟨o.text, o.meta, poss⟩) := by
  cases hposs : poss.isEmpty
  · cases old <;> simp [mergeSpec, hposs, map_add_zero_id]
  · cases old <;> simp [mergeSpec, hposs]

theorem persistDB_memory {α : Type} (s : DBState α) (w : Bool) :
    (persistDB s w).2.index = s.index ∧ (persistDB s w).2.documents = s.documents ∧
      (persistDB s w).2.id_map = s.id_map := by
  cases w <;> simp [persistDB]

theorem deleteDocument_found {α : Type} {s : DBState α} {target : String}
    {info : DocInfo} (h : dictGet target s.documents = some info) (w : Bool) :
    deleteDocument s target w =
      match rebuildGo s.documents target info.chunk_indices 0 s.id_map s.index
          [] [] [] 0 with
      | .error _ => (false, s)
      | .ok (ni, nim, nd) =>
        (true, (persistDB ⟨ni, nd, nim, s.disk⟩ w).2) := by
  unfold deleteDocument
  rw [h]

/-- From `FullInv`: every id appearing in the position map resolves in
the documents dict. -/
theorem FullInv_idmap_some {α : Type} {s : DBState α} (h : FullInv s)
    {d : String} (hd : d ∈ s.id_map) : ∃ v, dictGet d s.documents = some v := by
  obtain ⟨j, hj, hget⟩ := List.mem_iff_getElem.mp hd
  obtain ⟨kv, hkv, hkey, _⟩ := h.2.2.2 j hj
  have hdg := mem_dictGet_of_nodup h.2.1 hkv
  refine ⟨kv.2, ?_⟩
  rw [← hdg]
  congr 1
  rw [hkey, List.getD_eq_getElem _ _ hj, hget]

/-- What `delete_document` does on a present id, under the full
invariant: it succeeds, the new position map is the old one with the
target's entries filtered out, the new index has one row per kept
entry, the target is gone, and every surviving document keeps its text
and metadata with its chunk list replaced by its occurrence positions
among the kept owners. -/
theorem deleteDocument_spec {α : Type} {s : DBState α} {target : String}
    (writeOk : Bool) (hinv : FullInv s) {info : DocInfo}
    (htgt : dictGet target s.documents = some info) :
    (deleteDocument s target writeOk).1 = true ∧
    (deleteDocument s target writeOk).2.id_map
      = s.id_map.filter (fun d => d ≠ target) ∧
    (deleteDocument s target writeOk).2.index.length
      = (s.id_map.filter (fun d => d ≠ target)).length ∧
    (∀ e, dictGet e (deleteDocument s target writeOk).2.documents
      = if (idxsOf e (s.id_map.filter (fun d => d ≠ target))).isEmpty then none
        else (dictGet e s.documents).map
          (fun o => ⟨o.text, o.meta,
            idxsOf e (s.id_map.filter (fun d => d ≠ target))⟩)) ∧
    ((deleteDocument s target writeOk).2.documents.map Prod.fst).Nodup := by
  obtain ⟨hlen, hnodup, hfwd, hbwd⟩ := hinv
  have hmem_tgt : (target, info) ∈ s.documents := dictGet_some_mem htgt
  have hrem : ∀ j, j < s.id_map.length →
      ((0 + j) ∈ info.chunk_indices ↔ s.id_map.getD j "" = target) := by
    intro j hj
    rw [Nat.zero_add]
    constructor
    · intro hjmem
      exact (hfwd (target, info) hmem_tgt j hjmem).2
    · intro heq
      obtain ⟨kv, hkv, hkey, hjmem⟩ := hbwd j hj
      have hdg := mem_dictGet_of_nodup hnodup hkv
      rw [hkey, heq, htgt, Option.some_inj] at hdg
      rw [hdg]
      exact hjmem
  have hvlen : s.index.length = s.id_map.length := hlen.symm
  have hdocs : ∀ d ∈ s.id_map, d ≠ target →
      (dictGet d ([] : List (String × DocInfo))).isSome = true ∨
        (dictGet d s.documents).isSome = true := by
    intro d hd _
    right
    obtain ⟨v, hv⟩ := FullInv_idmap_some ⟨hlen, hnodup, hfwd, hbwd⟩ hd
    rw [hv]
    rfl
  obtain ⟨ni', nd', hrun, hlen', hget, hnd'⟩ :=
    rebuildGo_spec s.documents target info.chunk_indices s.id_map 0 s.index [] [] [] 0
      hrem hvlen hdocs (by simp)
  have hdel : deleteDocument s target writeOk
      = (true, (persistDB
          ⟨ni', nd', [] ++ s.id_map.filter (fun d => d ≠ target), s.disk⟩ writeOk).2) := by
    rw [deleteDocument_found htgt writeOk, hrun]
  obtain ⟨hpi, hpd, hpm⟩ := persistDB_memory
    (⟨ni', nd', [] ++ s.id_map.filter (fun d => d ≠ target), s.disk⟩ : DBState α) writeOk
  refine ⟨by rw [hdel], ?_, ?_, ?_, ?_⟩
  · rw [hdel]
    simp only [hpm]
    simp
  · rw [hdel]
    simp only [hpi]
    rw [hlen']
    simp
  · intro e
    rw [hdel]
    simp only [hpd]
    rw [hget e]
    rw [show dictGet e ([] : List (String × DocInfo)) = none from rfl]
    rw [mergeSpec_zero]
  · rw [hdel]
    simp only [hpd]
    exact hnd'


/-! ### Preservation of the full invariant -/

theorem addDocument_memory {α : Type} (s : DBState α) (docId text meta : String)
    (embs : List α) (w : Bool) :
    (addDocument s docId text meta embs true w).2.index = s.index ++ embs ∧
    (addDocument s docId text meta embs true w).2.documents
      = dictSet docId ⟨text, meta, List.range' s.id_map.length embs.length⟩ s.documents ∧
    (addDocument s docId text meta embs true w).2.id_map
      = s.id_map ++ List.replicate embs.length docId := by
  cases w <;> simp [addDocument, persistDB]

theorem emptyDB_fullInv (α : Type) : FullInv (emptyDB α) := by
  refine ⟨rfl, by simp [emptyDB], ?_, ?_⟩
  · intro kv hkv
    simp [emptyDB] at hkv
  · intro j hj
    simp [emptyDB] at hj

theorem add_preserves_fullInv {α : Type} {s : DBState α} {docId text meta : String}
    {embs : List α} (hinv : FullInv s)
    (hfresh : dictGet docId s.documents = none) (w : Bool) :
    FullInv (addDocument s docId text meta embs true w).2 := by
  obtain ⟨hlen, hnodup, hfwd, hbwd⟩ := hinv
  obtain ⟨hai, had, ham⟩ := addDocument_memory s docId text meta embs w
  have hset : dictSet docId ⟨text, meta, List.range' s.id_map.length embs.length⟩
        s.documents
      = s.documents ++ [(docId, ⟨text, meta, List.range' s.id_map.length embs.length⟩)] :=
    dictSet_eq_append _ _ _ hfresh
  refine ⟨?_, ?_, ?_, ?_⟩
  · rw [hai, ham]
    simp only [List.length_append, List.length_replicate]
    omega
  · rw [had, hset, List.map_append, List.nodup_append]
    refine ⟨hnodup, by simp, ?_⟩
    intro x hx
    simp only [List.map_cons, List.map_nil, List.mem_singleton]
    intro hxd
    subst hxd
    exact absurd hx ((dictGet_eq_none x s.documents).mp hfresh)
  · intro kv hkv i hi
    rw [had, hset] at hkv
    rw [ham]
    rcases List.mem_append.mp hkv with hold | hnew
    · have hb := hfwd kv hold i hi
      constructor
      · simp only [List.length_append, List.length_replicate]
        omega
      · rw [List.getD_append _ _ _ _ hb.1]
        exact hb.2
    · rw [List.mem_singleton] at hnew
      subst hnew
      have hi' : i ∈ List.range' s.id_map.length embs.length := hi
      rw [List.mem_range'_1] at hi'
      constructor
      · simp only [List.length_append, List.length_replicate]
        omega
      · rw [List.getD_append_right _ _ _ _ (by omega)]
        rw [List.getD_eq_getElem _ _ (by simp only [List.length_replicate]; omega),
          List.getElem_replicate]
  · intro j hj
    rw [ham] at hj ⊢
    rw [had, hset]
    simp only [List.length_append, List.length_replicate] at hj
    by_cases hcase : j < s.id_map.length
    · obtain ⟨kv, hkv, hkey, hmem⟩ := hbwd j hcase
      refine ⟨kv, List.mem_append_left _ hkv, ?_, hmem⟩
      rw [List.getD_append _ _ _ _ hcase]
      exact hkey
    · refine ⟨(docId, ⟨text, meta, List.range' s.id_map.length embs.length⟩),
        List.mem_append_right _ (by simp), ?_, ?_⟩
      · rw [List.getD_append_right _ _ _ _ (by omega)]
        rw [List.getD_eq_getElem _ _ (by simp only [List.length_replicate]; omega),
          List.getElem_replicate]
      · show j ∈ List.range' s.id_map.length embs.length
        rw [List.mem_range'_1]
        omega

theorem delete_preserves_fullInv {α : Type} {s : DBState α} (target : String)
    (w : Bool) (hinv : FullInv s) : FullInv (deleteDocument s target w).2 := by
  cases htgt : dictGet target s.documents with
  | none =>
    rw [delete_not_found α s target w htgt]
    exact hinv
  | some info =>
    obtain ⟨hok, hmap, hilen, hget, hnd⟩ := deleteDocument_spec w hinv htgt
    refine ⟨?_, hnd, ?_, ?_⟩
    · rw [hmap, hilen]
    · intro kv hkv i hi
      have hdg : dictGet kv.1 (deleteDocument s target w).2.documents = some kv.2 :=
        mem_dictGet_of_nodup hnd hkv
      rw [hget kv.1] at hdg
      by_cases hemp : (idxsOf kv.1 (s.id_map.filter (fun d => d ≠ target))).isEmpty
      · rw [if_pos hemp] at hdg
        exact absurd hdg (by simp)
      · rw [if_neg hemp] at hdg
        cases hold : dictGet kv.1 s.documents with
        | none =>
          rw [hold] at hdg
          simp at hdg
        | some o =>
          rw [hold, Option.map_some'] at hdg
          have hkv2 : kv.2
              = ⟨o.text, o.meta, idxsOf kv.1 (s.id_map.filter (fun d => d ≠ target))⟩ :=
            (Option.some_inj.mp hdg).symm
          have hi' : i ∈ idxsOf kv.1 (s.id_map.filter (fun d => d ≠ target)) := by
            rw [hkv2] at hi
            exact hi
          rw [mem_idxsOf] at hi'
          rw [hmap]
          exact ⟨hi'.1, hi'.2⟩
    · intro j hj
      rw [hmap] at hj
      have hin : j ∈ idxsOf ((s.id_map.filter (fun d => d ≠ target)).getD j "")
          (s.id_map.filter (fun d => d ≠ target)) := (mem_idxsOf _ _).mpr ⟨hj, rfl⟩
      have hne_emp : (idxsOf ((s.id_map.filter (fun d => d ≠ target)).getD j "")
          (s.id_map.filter (fun d => d ≠ target))).isEmpty = false := by
        rw [List.isEmpty_eq_false]
        exact List.ne_nil_of_mem hin
      have hmem_e : (s.id_map.filter (fun d => d ≠ target)).getD j ""
          ∈ s.id_map.filter (fun d => d ≠ target) := by
        rw [List.getD_eq_getElem _ _ hj]
        exact List.getElem_mem hj
      have hmem_e2 : (s.id_map.filter (fun d => d ≠ target)).getD j "" ∈ s.id_map :=
        (List.mem_filter.mp hmem_e).1
      obtain ⟨v, hv⟩ := FullInv_idmap_some hinv hmem_e2
      refine ⟨((s.id_map.filter (fun d => d ≠ target)).getD j "",
        ⟨v.text, v.meta, idxsOf ((s.id_map.filter (fun d => d ≠ target)).getD j "")
          (s.id_map.filter (fun d => d ≠ target))⟩), ?_, ?_, hin⟩
      · apply dictGet_some_mem
        rw [hget _, if_neg (by rw [hne_emp]; simp), hv, Option.map_some']
      · rw [hmap]

theorem applyOp_preserves_fullInv {α : Type} {s : DBState α} {op : DBOp α}
    (hinv : FullInv s) (hleg : legalOp s op = true) : FullInv (applyOp s op) := by
  cases op with
  | add docId text meta embs =>
    have hfresh : dictGet docId s.documents = none := by
      rw [legalOp, Bool.and_eq_true] at hleg
      exact Option.isNone_iff_eq_none.mp hleg.1
    exact add_preserves_fullInv hinv hfresh true
  | del docId => exact delete_preserves_fullInv docId true hinv

theorem runOps_fullInv {α : Type} :
    ∀ (ops : List (DBOp α)) (s : DBState α), FullInv s →
      legalOps s ops = true → FullInv (runOps s ops) := by
  intro ops
  induction ops with
  | nil => exact fun s h _ => h
  | cons op rest ih =>
    intro s h hleg
    rw [legalOps, Bool.and_eq_true] at hleg
    exact ih (applyOp s op) (applyOp_preserves_fullInv h hleg.1) hleg.2

theorem fullInv_rowPosInv {α : Type} {s : DBState α} (h : FullInv s) : RowPosInv s := by
  obtain ⟨hlen, _, hfwd, hbwd⟩ := h
  refine ⟨hlen, ?_, ?_, ?_⟩
  · intro kv hkv i hi
    have hb := hfwd kv hkv i hi
    omega
  · intro j hj
    obtain ⟨kv, hkv, _, hmem⟩ := hbwd j (by omega)
    exact ⟨kv, hkv, hmem⟩
  · intro kv hkv kv' hkv' i hi hi'
    have h1 := hfwd kv hkv i hi
    have h2 := hfwd kv' hkv' i hi'
    rw [← h1.2, ← h2.2]

/-! ### Claim C1 -/

/-- C1: after every sequence of successful ingests (with fresh
document identifiers and non-empty embedding lists) and deletes
starting from the empty store, the position map has exactly one entry
per vector-index row, every document's chunk positions are valid rows,
the documents' chunk-position lists together cover
the row set, and no position belongs to two distinct documents. -/
theorem row_position_invariant (α : Type) (ops : List (DBOp α))
    (h : legalOps (emptyDB α) ops = true) : RowPosInv (runOps (emptyDB α) ops) :=
  fullInv_rowPosInv (runOps_fullInv ops (emptyDB α) (emptyDB_fullInv α) h)

/-- Witness for C1: ingest `"a"` with two embeddings, ingest `"b"`
with one, then delete `"a"`. -/
theorem row_position_invariant_witness :
    legalOps (emptyDB Nat)
        [DBOp.add "a" "ta" "ma" [10, 11], DBOp.add "b" "tb" "mb" [12],
          DBOp.del "a"] = true ∧
      RowPosInv (runOps (emptyDB Nat)
        [DBOp.add "a" "ta" "ma" [10, 11], DBOp.add "b" "tb" "mb" [12],
          DBOp.del "a"]) :=
  ⟨by decide, row_position_invariant Nat _ (by decide)⟩

/-! ### Contiguity of the rebuilt position lists (claim C2) -/

/-- A nonempty contiguous run of positions — the shape of a
`chunk_indices` list as ingestion records it (`range(start, start+n)`
with `n > 0`). -/
def IsBlock (l : List Nat) : Prop :=
  l ≠ [] ∧ l = List.range' (l.headD 0) l.length

instance (l : List Nat) : Decidable (IsBlock l) := by
  unfold IsBlock; infer_instance

theorem isBlock_iff (l : List Nat) :
    IsBlock l ↔ ∃ a m, 0 < m ∧ l = List.range' a m := by
  constructor
  · rintro ⟨hne, heq⟩
    exact ⟨l.headD 0, l.length, List.length_pos.mpr hne, heq⟩
  · rintro ⟨a, m, hm, rfl⟩
    obtain ⟨k, rfl⟩ : ∃ k, m = k + 1 := ⟨m - 1, by omega⟩
    rw [List.range'_succ]
    exact ⟨by simp, by simp [List.range'_succ]⟩

theorem getD_take {l : List String} {b j : Nat} (hj : j < b) (hl : j < l.length) :
    (l.take b).getD j "" = l.getD j "" := by
  have hlt : j < (l.take b).length := by
    simp only [List.length_take]
    omega
  rw [List.getD_eq_getElem _ _ hlt, List.getD_eq_getElem _ _ hl, List.getElem_take]

theorem getD_drop {l : List String} {k j : Nat} (h : k + j < l.length) :
    (l.drop k).getD j "" = l.getD (k + j) "" := by
  have hlt : j < (l.drop k).length := by
    simp only [List.length_drop]
    omega
  rw [List.getD_eq_getElem _ _ hlt, List.getD_eq_getElem _ _ h, List.getElem_drop]

theorem map_add_right_range' (a b n : Nat) :
    (List.range' a n).map (· + b) = List.range' (a + b) n := by
  have h1 := List.map_add_range' b a n 1
  rw [show (List.range' a n).map (· + b) = (List.range' a n).map (b + ·) from
    List.map_congr_left (fun x _ => by omega), h1, Nat.add_comm]

/-- The heart of deletion correctness: if `e`'s rows form the interval
`[a, a+m)` of the position map and the deleted target's rows form the
interval `[b, b+q)`, then after the target's rows are filtered out,
`e`'s occurrence positions form the interval `[a, a+m)` (target was to
the right) or `[a−q, a−q+m)` (target was to the left) — contiguous
either way. -/
theorem idxsOf_filter_block {L : List String} {e target : String} (hne : e ≠ target)
    {a m b q : Nat} (hm : 0 < m) (hq : 0 < q)
    (haL : a + m ≤ L.length) (hbL : b + q ≤ L.length)
    (hoccE : ∀ j, j < L.length → (L.getD j "" = e ↔ (a ≤ j ∧ j < a + m)))
    (hoccT : ∀ j, j < L.length → (L.getD j "" = target ↔ (b ≤ j ∧ j < b + q))) :
    (a + m ≤ b ∧ idxsOf e (L.filter (fun d => d ≠ target)) = List.range' a m) ∨
    (b + q ≤ a ∧ idxsOf e (L.filter (fun d => d ≠ target))
      = List.range' (a - q) m) := by
  have hdisj : a + m ≤ b ∨ b + q ≤ a := by
    by_contra hcon
    push_neg at hcon
    set j := max a b with hj
    have hjL : j < L.length := by omega
    have h1 : L.getD j "" = e := (hoccE j hjL).mpr (by omega)
    have h2 : L.getD j "" = target := (hoccT j hjL).mpr (by omega)
    exact hne (h1 ▸ h2 ▸ rfl)
  -- the filtered map is the concatenation of the parts left and right
  -- of the target's block
  have hkept : L.filter (fun d => d ≠ target) = L.take b ++ L.drop (b + q) := by
    conv_lhs => rw [← List.take_append_drop b L]
    rw [List.filter_append]
    have ht : (L.take b).filter (fun d => d ≠ target) = L.take b := by
      rw [List.filter_eq_self]
      intro x hx
      rw [List.mem_iff_getElem] at hx
      obtain ⟨j, hjlt, hjx⟩ := hx
      have hjb : j < b := by
        have := hjlt
        simp only [List.length_take] at this
        omega
      have hjL : j < L.length := by omega
      rw [decide_eq_true_iff]
      intro hxt
      have : L.getD j "" = target := by
        rw [List.getD_eq_getElem _ _ hjL, ← List.getElem_take (h := hjlt), hjx, hxt]
      have := (hoccT j hjL).mp this
      omega
    rw [ht]
    conv_lhs => rw [show L.drop b = (L.drop b).take q ++ (L.drop b).drop q from
      (List.take_append_drop q _).symm]
    rw [List.filter_append]
    have hmid : ((L.drop b).take q).filter (fun d => d ≠ target) = [] := by
      rw [List.filter_eq_nil_iff]
      intro x hx
      rw [List.mem_iff_getElem] at hx
      obtain ⟨j, hjlt, hjx⟩ := hx
      have hjq : j < q := by
        have := hjlt
        simp only [List.length_take, List.length_drop] at this
        omega
      have hjd : j < (L.drop b).length := by
        simp only [List.length_drop]
        omega
      have hx_eq : x = L.getD (b + j) "" := by
        rw [← getD_drop (show b + j < L.length from by omega),
          List.getD_eq_getElem _ _ hjd, ← List.getElem_take (h := hjlt), hjx]
      have hTT : L.getD (b + j) "" = target := (hoccT (b + j) (by omega)).mpr (by omega)
      simp only [decide_eq_true_iff]
      exact fun hxt => hxt (hx_eq.trans hTT)
    have hlast : ((L.drop b).drop q).filter (fun d => d ≠ target)
        = (L.drop b).drop q := by
      rw [List.drop_drop, List.filter_eq_self]
      intro x hx
      rw [List.mem_iff_getElem] at hx
      obtain ⟨j, hjlt, hjx⟩ := hx
      have hjd : b + q + j < L.length := by
        have := hjlt
        simp only [List.length_drop] at this
        omega
      have hx_eq : x = L.getD (b + q + j) "" := by
        rw [← getD_drop hjd, List.getD_eq_getElem _ _ hjlt, hjx]
      simp only [decide_eq_true_iff]
      intro hxt
      have := (hoccT (b + q + j) hjd).mp (by rw [← hx_eq]; exact hxt)
      omega
    rw [hmid, hlast, List.nil_append, List.drop_drop]
  rw [hkept, idxsOf_append]
  have htb : (L.take b).length = b := by
    simp only [List.length_take]
    omega
  rcases hdisj with hcase | hcase
  · -- e's block lies left of the target's block
    left
    refine ⟨hcase, ?_⟩
    have h1 : idxsOf e (L.take b) = List.range' a m := by
      apply idxsOf_of_interval
      · intro j hj
        rw [htb] at hj
        rw [getD_take hj (by omega)]
        exact hoccE j (by omega)
      · rw [htb]
        omega
    have h2 : idxsOf e (L.drop (b + q)) = [] := by
      apply idxsOf_of_none
      intro j hj
      simp only [List.length_drop] at hj
      rw [getD_drop (by omega)]
      intro hx
      have := (hoccE (b + q + j) (by omega)).mp hx
      omega
    rw [h1, h2, htb]
    simp
  · -- e's block lies right of the target's block
    right
    refine ⟨hcase, ?_⟩
    have h1 : idxsOf e (L.take b) = [] := by
      apply idxsOf_of_none
      intro j hj
      rw [htb] at hj
      rw [getD_take hj (by omega)]
      intro hx
      have := (hoccE j (by omega)).mp hx
      omega
    have h2 : idxsOf e (L.drop (b + q)) = List.range' (a - (b + q)) m := by
      apply idxsOf_of_interval
      · intro j hj
        simp only [List.length_drop] at hj
        rw [getD_drop (by omega)]
        rw [hoccE (b + q + j) (by omega)]
        omega
      · simp only [List.length_drop]
        omega
    rw [h1, h2, htb, map_add_right_range']
    rw [show a - (b + q) + b = a - q from by omega]
    simp

/-! ### Query loop lemmas -/

theorem pyGet_ok_mem {l : List String} {i : Int} {x : String}
    (h : pyGet l i = .ok x) : x ∈ l := by
  simp only [pyGet] at h
  split at h
  · split at h
    · injection h with h2
      rw [← h2]
      exact l.get_mem _ _
    · exact absurd h (by simp)
  · split at h
    · injection h with h2
      rw [← h2]
      exact l.get_mem _ _
    · exact absurd h (by simp)

theorem queryLoop_cons_skip {idMap : List String} {docs : List (String × DocInfo)}
    {idx : Int} {rest : List Int} {seen : List String} {acc : List QueryResult}
    (hb : (idMap.length : Int) ≤ idx) :
    queryLoop idMap docs (idx :: rest) seen acc = queryLoop idMap docs rest seen acc := by
  rw [queryLoop, if_pos hb]

theorem queryLoop_cons_err {idMap : List String} {docs : List (String × DocInfo)}
    {idx : Int} {rest : List Int} {seen : List String} {acc : List QueryResult}
    (hb : ¬ (idMap.length : Int) ≤ idx) (hg : pyGet idMap idx = .error ()) :
    queryLoop idMap docs (idx :: rest) seen acc = .error () := by
  rw [queryLoop, if_neg hb, hg]

theorem queryLoop_cons_ok {idMap : List String} {docs : List (String × DocInfo)}
    {idx : Int} {rest : List Int} {seen : List String} {acc : List QueryResult}
    {d : String} (hb : ¬ (idMap.length : Int) ≤ idx) (hg : pyGet idMap idx = .ok d) :
    queryLoop idMap docs (idx :: rest) seen acc =
      if d ∈ seen then queryLoop idMap docs rest seen acc
      else
        match dictGet d docs with
        | none => .error ()
        | some info =>
          queryLoop idMap docs rest (seen ++ [d]) (acc ++ [⟨d, info.text, info.meta⟩]) := by
  rw [queryLoop, if_neg hb, hg]

/-- Every id in a successful query-loop result comes from the position
map. -/
theorem queryLoop_ids (idMap : List String) (docs : List (String × DocInfo)) :
    ∀ (rows : List Int) (seen : List String) (acc res : List QueryResult),
      queryLoop idMap docs rows seen acc = .ok res →
      (∀ r ∈ acc, r.id ∈ idMap) → ∀ r ∈ res, r.id ∈ idMap := by
  intro rows
  induction rows with
  | nil =>
    intro seen acc res h hacc
    rw [queryLoop] at h
    injection h with h2
    rw [← h2]
    exact hacc
  | cons idx rest ih =>
    intro seen acc res h hacc
    by_cases hb : (idMap.length : Int) ≤ idx
    · rw [queryLoop_cons_skip hb] at h
      exact ih _ _ _ h hacc
    · cases hget : pyGet idMap idx with
      | error e =>
        rw [queryLoop_cons_err hb (by cases e; exact hget)] at h
        exact absurd h (by simp)
      | ok d =>
        rw [queryLoop_cons_ok hb hget] at h
        by_cases hseen : d ∈ seen
        · rw [if_pos hseen] at h
          exact ih _ _ _ h hacc
        · rw [if_neg hseen] at h
          cases hdoc : dictGet d docs with
          | none =>
            rw [hdoc] at h
            exact absurd h (by simp)
          | some info =>
            rw [hdoc] at h
            refine ih _ _ _ h ?_
            intro r hr
            rcases List.mem_append.mp hr with h1 | h2
            · exact hacc r h1
            · rw [List.mem_singleton] at h2
              rw [h2]
              exact pyGet_ok_mem hget

/-- Every id a query returns appears in the position map. -/
theorem querySimilar_ids {α : Type} (s : DBState α) (rows : List Int) :
    ∀ r ∈ querySimilar s rows, r.id ∈ s.id_map := by
  intro r hr
  rw [querySimilar] at hr
  cases hrun : queryLoop s.id_map s.documents rows [] [] with
  | error e =>
    rw [hrun] at hr
    simp at hr
  | ok res =>
    rw [hrun] at hr
    exact queryLoop_ids s.id_map s.documents rows [] [] res hrun (by simp) r hr

/-! ### Occurrence intervals from the invariant -/

theorem FullInv_occ {α : Type} {s : DBState α} (hinv : FullInv s) {e : String}
    {o : DocInfo} (ho : dictGet e s.documents = some o) :
    ∀ j, j < s.id_map.length → (s.id_map.getD j "" = e ↔ j ∈ o.chunk_indices) := by
  intro j hj
  constructor
  · intro heq
    obtain ⟨kv, hkv, hkey, hmem⟩ := hinv.2.2.2 j hj
    have hdg := mem_dictGet_of_nodup hinv.2.1 hkv
    rw [hkey, heq, ho, Option.some_inj] at hdg
    rw [hdg]
    exact hmem
  · intro hmem
    exact (hinv.2.2.1 (e, o) (dictGet_some_mem ho) j hmem).2

/-! ### Claim C2 -/

/-- C2 counterexample: the state below satisfies the row/position
invariant as the spec phrases it — including the position-map
alignment clause — yet document `"E"` owns the non-contiguous rows
`{0, 3}`.  After `delete_document "D"` (which owns row 4), the
surviving document `"E"` is assigned the new chunk-position list
`[0, 3]`, which is NOT a contiguous range, refuting the claim as
stated: its hypothesis (the row/position invariant alone) does not
force survivors' new position lists to be contiguous. -/
theorem deletion_correctness_cx :
    FullInv (⟨[10, 11, 12, 13, 14],
        [("E", ⟨"tE", "mE", [0, 3]⟩), ("F", ⟨"tF", "mF", [1, 2]⟩),
          ("D", ⟨"tD", "mD", [4]⟩)],
        ["E", "F", "F", "E", "D"], ([], [], [])⟩ : DBState Nat) ∧
      (deleteDocument (⟨[10, 11, 12, 13, 14],
        [("E", ⟨"tE", "mE", [0, 3]⟩), ("F", ⟨"tF", "mF", [1, 2]⟩),
          ("D", ⟨"tD", "mD", [4]⟩)],
        ["E", "F", "F", "E", "D"], ([], [], [])⟩ : DBState Nat) "D" true).1 = true ∧
      dictGet "E" (deleteDocument (⟨[10, 11, 12, 13, 14],
        [("E", ⟨"tE", "mE", [0, 3]⟩), ("F", ⟨"tF", "mF", [1, 2]⟩),
          ("D", ⟨"tD", "mD", [4]⟩)],
        ["E", "F", "F", "E", "D"], ([], [], [])⟩ : DBState Nat) "D" true).2.documents
        = some ⟨"tE", "mE", [0, 3]⟩ ∧
      ¬ IsBlock [0, 3] := by
  refine ⟨by decide, by decide, by decide, by decide⟩

/-- C2 amended: the hypothesis is strengthened by requiring — in
addition to the row/position invariant with its position-map alignment
clause — that every document's chunk-position list is a nonempty
contiguous range, as ingestion produces.  Then after a successful
`delete_document(D)`: the call returns `True`; `D` is gone from the
document store, the position map, and the listing (so `query` never
returns it and `list` never includes it); every surviving document
keeps its text and metadata unchanged; each survivor's new
chunk-position list is again a nonempty contiguous range of unchanged
length; and the new state again satisfies the row/position invariant —
the survivors' lists are pairwise disjoint and cover
`{0, …, newRowCount−1}`. -/
theorem deletion_correctness {α : Type} (s : DBState α) (target : String)
    (writeOk : Bool) (hinv : FullInv s)
    (hblocks : ∀ kv ∈ s.documents, IsBlock kv.2.chunk_indices)
    {info : DocInfo} (htgt : dictGet target s.documents = some info) :
    (deleteDocument s target writeOk).1 = true ∧
    dictGet target (deleteDocument s target writeOk).2.documents = none ∧
    target ∉ (deleteDocument s target writeOk).2.id_map ∧
    target ∉ listDocuments (deleteDocument s target writeOk).2 ∧
    (∀ rows r, r ∈ querySimilar (deleteDocument s target writeOk).2 rows →
      r.id ≠ target) ∧
    (∀ e o, e ≠ target → dictGet e s.documents = some o →
      ∃ cs, dictGet e (deleteDocument s target writeOk).2.documents
          = some ⟨o.text, o.meta, cs⟩ ∧ IsBlock cs ∧
        cs.length = o.chunk_indices.length) ∧
    RowPosInv (deleteDocument s target writeOk).2 := by
  obtain ⟨hok, hmap, hilen, hget, hnd⟩ := deleteDocument_spec writeOk hinv htgt
  have htgt_none : dictGet target
      (deleteDocument s target writeOk).2.documents = none := by
    rw [hget target]
    have hempty : idxsOf target (s.id_map.filter (fun d => d ≠ target)) = [] := by
      apply idxsOf_of_none
      intro j hj heq
      have hmem : (s.id_map.filter (fun d => d ≠ target)).getD j ""
          ∈ s.id_map.filter (fun d => d ≠ target) := by
        rw [List.getD_eq_getElem _ _ hj]
        exact List.getElem_mem hj
      rw [heq] at hmem
      have hx := (List.mem_filter.mp hmem).2
      simp at hx
    rw [hempty]
    simp
  have hnotin : target ∉ (deleteDocument s target writeOk).2.id_map := by
    rw [hmap]
    intro hmem
    have hx := (List.mem_filter.mp hmem).2
    simp at hx
  refine ⟨hok, htgt_none, hnotin, ?_, ?_, ?_, ?_⟩
  · intro hmem
    rw [listDocuments] at hmem
    exact absurd hmem ((dictGet_eq_none target _).mp htgt_none)
  · intro rows r hr heq
    have hid := querySimilar_ids _ rows r hr
    rw [heq] at hid
    exact hnotin hid
  · intro e o hne ho
    have hoB := hblocks (e, o) (dictGet_some_mem ho)
    have htB := hblocks (target, info) (dictGet_some_mem htgt)
    obtain ⟨a, m, hm, hoeq⟩ := (isBlock_iff _).mp hoB
    obtain ⟨b, q, hq, hteq⟩ := (isBlock_iff _).mp htB
    have hoccE : ∀ j, j < s.id_map.length →
        (s.id_map.getD j "" = e ↔ (a ≤ j ∧ j < a + m)) := by
      intro j hj
      rw [FullInv_occ hinv ho j hj]
      show j ∈ o.chunk_indices ↔ _
      rw [hoeq, List.mem_range'_1]
    have hoccT : ∀ j, j < s.id_map.length →
        (s.id_map.getD j "" = target ↔ (b ≤ j ∧ j < b + q)) := by
      intro j hj
      rw [FullInv_occ hinv htgt j hj]
      show j ∈ info.chunk_indices ↔ _
      rw [hteq, List.mem_range'_1]
    have haL : a + m ≤ s.id_map.length := by
      have hmm : a + m - 1 ∈ o.chunk_indices := by
        rw [hoeq, List.mem_range'_1]
        omega
      have := (hinv.2.2.1 (e, o) (dictGet_some_mem ho) _ hmm).1
      omega
    have hbL : b + q ≤ s.id_map.length := by
      have hmm : b + q - 1 ∈ info.chunk_indices := by
        rw [hteq, List.mem_range'_1]
        omega
      have := (hinv.2.2.1 (target, info) (dictGet_some_mem htgt) _ hmm).1
      omega
    have hlen_o : o.chunk_indices.length = m := by
      rw [hoeq, List.length_range']
    rcases idxsOf_filter_block hne hm hq haL hbL hoccE hoccT with
      ⟨_, hidx⟩ | ⟨_, hidx⟩
    · refine ⟨List.range' a m, ?_, ?_, ?_⟩
      · rw [hget e, hidx, if_neg (by
          rw [Bool.not_eq_true, List.isEmpty_eq_false]
          exact List.length_pos.mp (by rw [List.length_range']; omega)), ho,
          Option.map_some']
      · exact (isBlock_iff _).mpr ⟨a, m, hm, rfl⟩
      · rw [List.length_range', hlen_o]
    · refine ⟨List.range' (a - q) m, ?_, ?_, ?_⟩
      · rw [hget e, hidx, if_neg (by
          rw [Bool.not_eq_true, List.isEmpty_eq_false]
          exact List.length_pos.mp (by rw [List.length_range']; omega)), ho,
          Option.map_some']
      · exact (isBlock_iff _).mpr ⟨a - q, m, hm, rfl⟩
      · rw [List.length_range', hlen_o]
  · exact fullInv_rowPosInv (delete_preserves_fullInv target writeOk hinv)

/-- Witness for the amended C2 at a concrete store: documents `"a"`
(rows 0, 1) and `"b"` (row 2); delete `"a"`. -/
theorem deletion_correctness_witness :
    (FullInv (⟨[1, 2, 3],
        [("a", ⟨"ta", "ma", [0, 1]⟩), ("b", ⟨"tb", "mb", [2]⟩)],
        ["a", "a", "b"], ([], [], [])⟩ : DBState Nat) ∧
      (∀ kv ∈ [("a", (⟨"ta", "ma", [0, 1]⟩ : DocInfo)), ("b", ⟨"tb", "mb", [2]⟩)],
        IsBlock kv.2.chunk_indices) ∧
      dictGet "a" [("a", (⟨"ta", "ma", [0, 1]⟩ : DocInfo)), ("b", ⟨"tb", "mb", [2]⟩)]
        = some ⟨"ta", "ma", [0, 1]⟩) ∧
    ((deleteDocument (⟨[1, 2, 3],
        [("a", ⟨"ta", "ma", [0, 1]⟩), ("b", ⟨"tb", "mb", [2]⟩)],
        ["a", "a", "b"], ([], [], [])⟩ : DBState Nat) "a" true).1 = true ∧
      RowPosInv (deleteDocument (⟨[1, 2, 3],
        [("a", ⟨"ta", "ma", [0, 1]⟩), ("b", ⟨"tb", "mb", [2]⟩)],
        ["a", "a", "b"], ([], [], [])⟩ : DBState Nat) "a" true).2) := by
  have h := @deletion_correctness Nat
    (⟨[1, 2, 3], [("a", ⟨"ta", "ma", [0, 1]⟩), ("b", ⟨"tb", "mb", [2]⟩)],
      ["a", "a", "b"], ([], [], [])⟩ : DBState Nat) "a" true
    (by decide) (by decide) ⟨"ta", "ma", [0, 1]⟩ (by decide)
  exact ⟨⟨by decide, by decide, by decide⟩, h.1, h.2.2.2.2.2.2⟩

/-! ### Claim C3: the query path matches the spec's reference computation -/

/-- The reference computation, following the spec's words (§4.4):
walk the returned rows in order, discard any row that is not a valid
row of the current index (including the `-1` padding entries), resolve
each remaining row to its owning document via the position map, keep
only the first occurrence of each distinct document, and pair it with
its full text and metadata.  The loop also returns the set (list) of
document ids already seen.  (The spec presumes every position-map
entry resolves in the store; a non-resolving entry is skipped.) -/
def refQueryLoop (idMap : List String) (docs : List (String × DocInfo)) :
    List Int → List String → List String × List QueryResult
  | [], seen => (seen, [])
  | idx :: rest, seen =>
    if idMap.getD idx.toNat "" ∈ seen then refQueryLoop idMap docs rest seen
    else
      match dictGet (idMap.getD idx.toNat "") docs with
      | some info =>
        ((refQueryLoop idMap docs rest (seen ++ [idMap.getD idx.toNat ""])).1,
          ⟨idMap.getD idx.toNat "", info.text, info.meta⟩ ::
            (refQueryLoop idMap docs rest (seen ++ [idMap.getD idx.toNat ""])).2)
      | none => refQueryLoop idMap docs rest seen

/-- Spec-side reference for `query_similar` (see `refQueryLoop`). -/
def refQuery {α : Type} (s : DBState α) (rows : List Int) : List QueryResult :=
  (refQueryLoop s.id_map s.documents
    (rows.filter (fun idx => decide (0 ≤ idx ∧ idx < (s.id_map.length : Int)))) []).2

theorem refQueryLoop_cons_seen {idMap : List String} {docs : List (String × DocInfo)}
    {idx : Int} {rest : List Int} {seen : List String}
    (hs : idMap.getD idx.toNat "" ∈ seen) :
    refQueryLoop idMap docs (idx :: rest) seen = refQueryLoop idMap docs rest seen := by
  rw [refQueryLoop, if_pos hs]

theorem refQueryLoop_cons_none {idMap : List String} {docs : List (String × DocInfo)}
    {idx : Int} {rest : List Int} {seen : List String}
    (hs : idMap.getD idx.toNat "" ∉ seen)
    (hd : dictGet (idMap.getD idx.toNat "") docs = none) :
    refQueryLoop idMap docs (idx :: rest) seen = refQueryLoop idMap docs rest seen := by
  rw [refQueryLoop, if_neg hs, hd]

theorem refQueryLoop_cons_some {idMap : List String} {docs : List (String × DocInfo)}
    {idx : Int} {rest : List Int} {seen : List String} {info : DocInfo}
    (hs : idMap.getD idx.toNat "" ∉ seen)
    (hd : dictGet (idMap.getD idx.toNat "") docs = some info) :
    refQueryLoop idMap docs (idx :: rest) seen
      = ((refQueryLoop idMap docs rest (seen ++ [idMap.getD idx.toNat ""])).1,
        ⟨idMap.getD idx.toNat "", info.text, info.meta⟩ ::
          (refQueryLoop idMap docs rest (seen ++ [idMap.getD idx.toNat ""])).2) := by
  rw [refQueryLoop, if_neg hs, hd]

theorem pyGet_nonneg {l : List String} {i : Int} (h0 : 0 ≤ i)
    (hl : i < (l.length : Int)) : pyGet l i = .ok (l.getD i.toNat "") := by
  simp only [pyGet]
  rw [if_neg (by omega), dif_pos ⟨h0, hl⟩, List.getD_eq_getElem _ _ (by omega)]
  rfl

theorem get_congr_idx {l : List String} {a b : Nat} (ha : a < l.length)
    (hb : b < l.length) (hab : a = b) : l.get ⟨a, ha⟩ = l.get ⟨b, hb⟩ := by
  subst hab
  rfl

theorem pyGet_neg_one {l : List String} (h : 1 ≤ l.length) :
    pyGet l (-1) = .ok (l.getD (l.length - 1) "") := by
  simp only [pyGet]
  rw [if_pos (by omega), dif_pos ⟨by omega, by omega⟩,
    List.getD_eq_getElem _ _ (by omega)]
  exact congrArg Except.ok (get_congr_idx _ _ (by omega))

/-- Processing a prefix of valid row indices: the code's loop agrees
with the reference loop, threading the seen-set and results. -/
theorem queryLoop_valid_append (idMap : List String) (docs : List (String × DocInfo))
    (hdocs : ∀ d ∈ idMap, (dictGet d docs).isSome = true) :
    ∀ (V : List Int), (∀ v ∈ V, 0 ≤ v ∧ v < (idMap.length : Int)) →
    ∀ (T : List Int) (seen : List String) (acc : List QueryResult),
      queryLoop idMap docs (V ++ T) seen acc
        = queryLoop idMap docs T (refQueryLoop idMap docs V seen).1
            (acc ++ (refQueryLoop idMap docs V seen).2) := by
  intro V
  induction V with
  | nil =>
    intro _ T seen acc
    rw [List.nil_append, refQueryLoop]
    simp
  | cons idx V ih =>
    intro hV T seen acc
    have h0 := hV idx (List.mem_cons_self _ _)
    have hb : ¬ (idMap.length : Int) ≤ idx := by omega
    have hg := pyGet_nonneg h0.1 h0.2
    have hdmem : idMap.getD idx.toNat "" ∈ idMap := by
      rw [List.getD_eq_getElem _ _ (by omega)]
      exact List.getElem_mem _
    rw [List.cons_append, queryLoop_cons_ok hb hg]
    by_cases hseen : idMap.getD idx.toNat "" ∈ seen
    · rw [if_pos hseen, refQueryLoop_cons_seen hseen]
      exact ih (fun v hv => hV v (List.mem_cons_of_mem _ hv)) T seen acc
    · rw [if_neg hseen]
      cases hdoc : dictGet (idMap.getD idx.toNat "") docs with
      | none =>
        have hsome := hdocs _ hdmem
        rw [hdoc] at hsome
        exact absurd hsome (by simp)
      | some info =>
        rw [refQueryLoop_cons_some hseen hdoc]
        show queryLoop idMap docs (V ++ T) (seen ++ [idMap.getD idx.toNat ""])
            (acc ++ [⟨idMap.getD idx.toNat "", info.text, info.meta⟩]) = _
        rw [ih (fun v hv => hV v (List.mem_cons_of_mem _ hv)) T
          (seen ++ [idMap.getD idx.toNat ""])]
        simp

/-- The `-1` padding entries are absorbed once the last row's owner
has been seen. -/
theorem queryLoop_pads (idMap : List String) (docs : List (String × DocInfo))
    (hlen : 1 ≤ idMap.length) {seen : List String}
    (hseen : idMap.getD (idMap.length - 1) "" ∈ seen) :
    ∀ (p : Nat) (acc : List QueryResult),
      queryLoop idMap docs (List.replicate p (-1)) seen acc = .ok acc := by
  intro p
  induction p with
  | zero => intro acc; rfl
  | succ k ih =>
    intro acc
    rw [List.replicate_succ]
    have hb : ¬ (idMap.length : Int) ≤ (-1 : Int) := by omega
    rw [queryLoop_cons_ok hb (pyGet_neg_one hlen), if_pos hseen]
    exact ih acc

theorem refQueryLoop_seen_mono (idMap : List String) (docs : List (String × DocInfo)) :
    ∀ (V : List Int) (seen : List String) (d : String), d ∈ seen →
      d ∈ (refQueryLoop idMap docs V seen).1 := by
  intro V
  induction V with
  | nil => exact fun seen d hd => hd
  | cons idx rest ih =>
    intro seen d hd
    by_cases hs : idMap.getD idx.toNat "" ∈ seen
    · rw [refQueryLoop_cons_seen hs]
      exact ih _ _ hd
    · cases hdoc : dictGet (idMap.getD idx.toNat "") docs with
      | none =>
        rw [refQueryLoop_cons_none hs hdoc]
        exact ih _ _ hd
      | some info =>
        rw [refQueryLoop_cons_some hs hdoc]
        exact ih _ _ (List.mem_append_left _ hd)

/-- Every processed row's owner ends up in the seen set. -/
theorem refQueryLoop_seen_covers (idMap : List String)
    (docs : List (String × DocInfo))
    (hdocs : ∀ d ∈ idMap, (dictGet d docs).isSome = true) :
    ∀ (V : List Int) (seen : List String) (idx : Int), idx ∈ V →
      (0 ≤ idx ∧ idx < (idMap.length : Int)) →
      idMap.getD idx.toNat "" ∈ (refQueryLoop idMap docs V seen).1 := by
  intro V
  induction V with
  | nil =>
    intro seen idx hmem
    exact absurd hmem (List.not_mem_nil _)
  | cons j rest ih =>
    intro seen idx hmem hval
    rcases List.mem_cons.mp hmem with rfl | hx
    · by_cases hs : idMap.getD idx.toNat "" ∈ seen
      · rw [refQueryLoop_cons_seen hs]
        exact refQueryLoop_seen_mono _ _ _ _ _ hs
      · cases hdoc : dictGet (idMap.getD idx.toNat "") docs with
        | none =>
          have hdmem : idMap.getD idx.toNat "" ∈ idMap := by
            rw [List.getD_eq_getElem _ _ (by omega)]
            exact List.getElem_mem _
          have hsome := hdocs _ hdmem
          rw [hdoc] at hsome
          exact absurd hsome (by simp)
        | some info =>
          rw [refQueryLoop_cons_some hs hdoc]
          exact refQueryLoop_seen_mono _ _ _ _ _
            (List.mem_append_right _ (List.mem_singleton.mpr rfl))
    · by_cases hs : idMap.getD j.toNat "" ∈ seen
      · rw [refQueryLoop_cons_seen hs]
        exact ih _ _ hx hval
      · cases hdoc : dictGet (idMap.getD j.toNat "") docs with
        | none =>
          rw [refQueryLoop_cons_none hs hdoc]
          exact ih _ _ hx hval
        | some info =>
          rw [refQueryLoop_cons_some hs hdoc]
          exact ih _ _ hx hval

/-- C3: under the row/position invariant, `query_similar` computes
exactly the spec's reference result.  The external FAISS `search` call
is represented by its output: a row array `V ++ replicate p (-1)`
where `V` holds valid row indices (ascending distance order — the
order is irrelevant to the equality, so it is not assumed) and the
`-1` padding entries appear only when fewer than `k` rows exist, in
which case FAISS has already returned every stored row (`hp`).  The
code does not discard the `-1` entries — Python's negative indexing
resolves them to the LAST id-map entry — but that document was already
seen, so deduplication hides the bug and the result still equals the
reference. -/
theorem query_matches_reference (α : Type) (s : DBState α) (hinv : FullInv s)
    (V : List Int) (p : Nat)
    (hV : ∀ v ∈ V, 0 ≤ v ∧ v < (s.id_map.length : Int))
    (hp : 0 < p → ∀ j, j < s.id_map.length → (j : Int) ∈ V) :
    querySimilar s (V ++ List.replicate p (-1))
      = refQuery s (V ++ List.replicate p (-1)) := by
  have hdocs : ∀ d ∈ s.id_map, (dictGet d s.documents).isSome = true := by
    intro d hd
    obtain ⟨v, hv⟩ := FullInv_idmap_some hinv hd
    rw [hv]
    rfl
  have hfil : (V ++ List.replicate p (-1)).filter
      (fun idx => decide (0 ≤ idx ∧ idx < (s.id_map.length : Int))) = V := by
    rw [List.filter_append]
    have h1 : V.filter
        (fun idx => decide (0 ≤ idx ∧ idx < (s.id_map.length : Int))) = V :=
      List.filter_eq_self.mpr (fun v hv => by
        rw [decide_eq_true_iff]
        exact hV v hv)
    have h2 : (List.replicate p (-1 : Int)).filter
        (fun idx => decide (0 ≤ idx ∧ idx < (s.id_map.length : Int))) = [] :=
      List.filter_eq_nil_iff.mpr (by
        intro x hx
        rw [List.eq_of_mem_replicate hx]
        simp)
    rw [h1, h2, List.append_nil]
  rw [refQuery, hfil]
  rcases Nat.eq_zero_or_pos p with hp0 | hppos
  · subst hp0
    rw [querySimilar,
      queryLoop_valid_append _ _ hdocs V hV (List.replicate 0 (-1)) [] [],
      show List.replicate 0 (-1 : Int) = [] from rfl, queryLoop]
    simp
  · rcases Nat.eq_zero_or_pos s.id_map.length with hn0 | hn1
    · have hVnil : V = [] := by
        cases V with
        | nil => rfl
        | cons v vs =>
          have hb := hV v (List.mem_cons_self _ _)
          omega
      subst hVnil
      rw [List.nil_append]
      obtain ⟨k, rfl⟩ : ∃ k, p = k + 1 := ⟨p - 1, by omega⟩
      rw [querySimilar, List.replicate_succ]
      have hmap_nil : s.id_map = [] := List.length_eq_zero.mp hn0
      rw [queryLoop_cons_err (by omega) (by
        simp only [pyGet]
        rw [if_pos (by omega)]
        rw [dif_neg (by omega)])]
      rfl
    · rw [querySimilar, queryLoop_valid_append _ _ hdocs V hV _ [] []]
      have hcov := refQueryLoop_seen_covers s.id_map s.documents hdocs V []
        (((s.id_map.length - 1 : Nat) : Int)) (hp hppos _ (by omega))
        ⟨by omega, by omega⟩
      have hseen : s.id_map.getD (s.id_map.length - 1) ""
          ∈ (refQueryLoop s.id_map s.documents V []).1 := by
        simpa using hcov
      rw [queryLoop_pads _ _ hn1 hseen p _]
      simp

/-- Witness for C3 at a concrete store and search output: documents
`"a"` (rows 0, 1) and `"b"` (row 2); FAISS returns rows `[2, 0]`
with no padding. -/
theorem query_matches_reference_witness :
    (FullInv (⟨[1, 2, 3],
        [("a", ⟨"ta", "ma", [0, 1]⟩), ("b", ⟨"tb", "mb", [2]⟩)],
        ["a", "a", "b"], ([], [], [])⟩ : DBState Nat) ∧
      (∀ v ∈ [(2 : Int), 0], 0 ≤ v ∧ v < ((3 : Nat) : Int))) ∧
    querySimilar (⟨[1, 2, 3],
        [("a", ⟨"ta", "ma", [0, 1]⟩), ("b", ⟨"tb", "mb", [2]⟩)],
        ["a", "a", "b"], ([], [], [])⟩ : DBState Nat)
        ([(2 : Int), 0] ++ List.replicate 0 (-1))
      = refQuery (⟨[1, 2, 3],
        [("a", ⟨"ta", "ma", [0, 1]⟩), ("b", ⟨"tb", "mb", [2]⟩)],
        ["a", "a", "b"], ([], [], [])⟩ : DBState Nat)
        ([(2 : Int), 0] ++ List.replicate 0 (-1)) := by
  refine ⟨⟨by decide, by decide⟩, ?_⟩
  exact query_matches_reference Nat
    (⟨[1, 2, 3], [("a", ⟨"ta", "ma", [0, 1]⟩), ("b", ⟨"tb", "mb", [2]⟩)],
      ["a", "a", "b"], ([], [], [])⟩ : DBState Nat)
    (by decide) [(2 : Int), 0] 0 (by decide) (by decide)

end RagCore
